import Mathlib

/-! mackerel-plugin-oracle: wait-event selectors, key normalisation, selector rendering,
metric source adapters, merging and graph definitions

A shallow embedding of `lib/oracle.go` (package `mporacle`).

* A Go `string` is a sequence of bytes; it is modelled as a list of byte values.
* A Go `map[string]T` is modelled as the list of its entries, with pairwise distinct keys.
* The Go standard library is not part of the repository.  What the program calls from it
  is either written out here from its documented behaviour (the byte replacer behind
  `strings.NewReplacer`, the ASCII path of `strings.ToLower`, UTF-8 decoding and
  `strconv.Quote` behind the `%q` verb) or taken as a parameter (package `regexp`, the
  Unicode case tables, the Unicode printable tables, `strings.Title`).
* The database behind `database/sql` is modelled by the outcome of each of the three
  statements of the program; a fetch function hands back, next to its Go result, the
  statements it has sent.
-/

namespace mporacle

/-! ## Go strings -/

/-- A Go string: its bytes, in order (every element is a byte value, below 256). -/
abbrev GoString := List Nat

/-- The Go string written by an ASCII literal: one byte per character. -/
def ascii (s : String) : GoString := s.toList.map Char.toNat

/-- The Go slice expression `s[lo:hi]` (for `lo ≤ hi ≤ len(s)`, where Go does not panic). -/
def slice (s : GoString) (lo hi : Nat) : GoString := (s.take hi).drop lo

/-! ## Package `regexp`, as far as the program uses it -/

/-- The two functions of package `regexp` the program calls, over the type `ρ` of compiled
expressions (`*regexp.Regexp`) and the type `ε` of compilation errors. -/
structure RegexpPkg (ρ ε : Type) where
  /-- Go: `regexp.Compile(expr)`. -/
  Compile : GoString → Except ε ρ
  /-- Go: `(*Regexp).MatchString(s)`: whether `s` contains any match of the expression. -/
  MatchString : ρ → GoString → Bool

/-! ## Wait-event selectors (`oracle.go`, lines 19-66) -/

/-- Go: `type waitEventName struct { Name string; Pattern *regexp.Regexp }`;
a nil `Pattern` is `none`. -/
structure waitEventName (ρ : Type) where
  Name : GoString
  Pattern : Option ρ
deriving DecidableEq

/-- Go: `type waitEventNames []waitEventName`. -/
abbrev waitEventNames (ρ : Type) := List (waitEventName ρ)

/-- A Go `error` value returned by `Set`: either made by `errors.New` or the error of
`regexp.Compile`. -/
inductive error (ε : Type) where
  | New (text : String)
  | regexp (err : ε)
deriving DecidableEq

/-- Go: `func (we *waitEventNames) Match(name string) bool`. -/
def waitEventNames.Match {ρ ε : Type} (re : RegexpPkg ρ ε) :
    waitEventNames ρ → GoString → Bool
  | [], _ => false
  | w :: ws, name =>
    if (match w.Pattern with
        | some p => re.MatchString p name
        | none => false) then true
    else if w.Name = name then true
    else waitEventNames.Match re ws name

/-- The test of line 57: `len(value) > 2 && value[0] == '/' && value[len(value)-1] == '/'`. -/
def delimited (value : GoString) : Bool :=
  decide (value.length > 2) && value[0]? == some '/'.toNat
    && value[value.length - 1]? == some '/'.toNat

/-- Go: `func (we *waitEventNames) Set(value string) error`.  The receiver is passed in and
handed back next to the returned error (`none` is Go's nil error). -/
def waitEventNames.Set {ρ ε : Type} (re : RegexpPkg ρ ε) (we : waitEventNames ρ)
    (value : GoString) : waitEventNames ρ × Option (error ε) :=
  if value = [] then (we, some (.New "event name must not be empty"))
  else if delimited value then
    match re.Compile (slice value 1 (value.length - 2)) with
    | .error err => (we, some (.regexp err))
    | .ok p => (we ++ [⟨value, some p⟩], none)
  else (we ++ [⟨value, none⟩], none)

/-- A run of `Set` calls on one receiver, as the flag parser and the tests make them:
the receiver after the calls, and the error of each call in order. -/
def waitEventNames.SetAll {ρ ε : Type} (re : RegexpPkg ρ ε) :
    waitEventNames ρ → List GoString → waitEventNames ρ × List (Option (error ε))
  | we, [] => (we, [])
  | we, v :: vs =>
    let r := waitEventNames.Set re we v
    let rest := waitEventNames.SetAll re r.1 vs
    (rest.1, r.2 :: rest.2)

/-! ## A concrete `regexp` on a fragment of the expression language

Expressions built from literal ASCII bytes, `^`, `$`, `|` and parentheses, with Go's
meaning for them (no flags: `^` is the start and `$` the end of the text).  Every other
expression is reported as `outsideFragment`, though Go compiles many of them; the
fragment serves to evaluate the program on concrete selectors. -/

/-- Regular expressions of the fragment. -/
inductive Re where
  | empty
  | lit (b : Nat)
  | bol
  | eol
  | cat (a b : Re)
  | alt (a b : Re)
deriving DecidableEq

/-- Why an expression is not compiled. -/
inductive ErrorCode where
  | ErrMissingParen
  | ErrUnexpectedParen
  | outsideFragment
deriving DecidableEq

/-- The concatenation of the expressions of a list. -/
def Re.concat : List Re → Re
  | [] => .empty
  | [r] => r
  | r :: r2 :: rs => .cat r (Re.concat (r2 :: rs))

/-- The alternation of the expressions of a non-empty list. -/
def Re.alternate : List Re → Re
  | [] => .empty
  | [r] => r
  | r :: r2 :: rs => .alt r (Re.alternate (r2 :: rs))

/-- An open group while parsing: the alternatives already closed by `|`, and the pieces
of the alternative being read. -/
structure Frame where
  alts : List Re
  cur : List Re

/-- The expression of a finished group. -/
def Frame.close (f : Frame) : Re := Re.alternate (f.alts ++ [Re.concat f.cur])

/-- The bytes that stand for themselves: ASCII bytes that are no operator of the expression
language. -/
def isLiteral (c : Nat) : Bool :=
  decide (c < 0x80) && !(ascii "\\.+*?()|[]{}^$").contains c

/-- One left-to-right pass over the expression with a stack of the open groups. -/
def parseLoop : GoString → Frame → List Frame → Except ErrorCode Re
  | [], f, [] => .ok f.close
  | [], _, _ :: _ => .error .ErrMissingParen
  | c :: cs, f, stack =>
    if c = '('.toNat then parseLoop cs ⟨[], []⟩ (f :: stack)
    else if c = ')'.toNat then
      match stack with
      | [] => .error .ErrUnexpectedParen
      | p :: ps => parseLoop cs ⟨p.alts, p.cur ++ [f.close]⟩ ps
    else if c = '|'.toNat then parseLoop cs ⟨f.alts ++ [Re.concat f.cur], []⟩ stack
    else if c = '^'.toNat then parseLoop cs ⟨f.alts, f.cur ++ [.bol]⟩ stack
    else if c = '$'.toNat then parseLoop cs ⟨f.alts, f.cur ++ [.eol]⟩ stack
    else if isLiteral c then parseLoop cs ⟨f.alts, f.cur ++ [.lit c]⟩ stack
    else .error .outsideFragment

/-- The end positions of the matches of `r` in `s` that start at position `i`. -/
def Re.ends (s : GoString) : Re → Nat → List Nat
  | .empty, i => [i]
  | .lit b, i => if s[i]? = some b then [i + 1] else []
  | .bol, i => if i = 0 then [i] else []
  | .eol, i => if i = s.length then [i] else []
  | .cat a b, i => (Re.ends s a i).flatMap (fun j => Re.ends s b j)
  | .alt a b, i => Re.ends s a i ++ Re.ends s b i

/-- Whether `s` contains a match of `r`: a match may start and end anywhere in `s`. -/
def Re.search (r : Re) (s : GoString) : Bool :=
  (List.range (s.length + 1)).any (fun i => !(Re.ends s r i).isEmpty)

/-- Whether the whole of `s` is a match of `r`. -/
def Re.fullMatch (r : Re) (s : GoString) : Bool :=
  (Re.ends s r 0).contains s.length

/-- Package `regexp` on the fragment. -/
def fragment : RegexpPkg Re ErrorCode where
  Compile := fun expr => parseLoop expr ⟨[], []⟩ []
  MatchString := Re.search

/-! ## Package `strings`: the replacer and `ToLower` -/

/-- Go: `strings.NewReplacer(oldnew...)` when every old string is a single byte, as a list
of (old byte, new string) pairs in argument order. -/
abbrev Replacer := List (Nat × GoString)

/-- Go: `(*Replacer).Replace(s)` for single-byte old strings: one pass over the bytes of
`s`, each byte with a replacement is replaced by it (the first pair for that byte wins),
every other byte is copied. -/
def Replacer.Replace (r : Replacer) (s : GoString) : GoString :=
  s.flatMap (fun b =>
    match r.lookup b with
    | some new => new
    | none => [b])

/-- Whether `c` is one of the bytes `'A'` to `'Z'`. -/
def isUpperByte (c : Nat) : Bool := decide ('A'.toNat ≤ c) && decide (c ≤ 'Z'.toNat)

/-- The ASCII path of `strings.ToLower` on one byte: `c += 'a' - 'A'` for `'A' ≤ c ≤ 'Z'`. -/
def lowerByte (c : Nat) : Nat := if isUpperByte c then c + ('a'.toNat - 'A'.toNat) else c

/-- Whether every byte of `s` is below `utf8.RuneSelf`. -/
def isASCII (s : GoString) : Bool := s.all (fun c => decide (c < 0x80))

/-- Go: `strings.ToLower(s)`.  A string of ASCII bytes is returned unchanged when it has no
upper-case letter and is lower-cased byte by byte otherwise; any other string goes
through `strings.Map(unicode.ToLower, s)`, which depends on the Unicode case tables and is
the parameter `mapLower`. -/
def ToLower (mapLower : GoString → GoString) (s : GoString) : GoString :=
  if isASCII s then
    if !s.any isUpperByte then s else s.map lowerByte
  else mapLower s

/-- The package-level variable `replacer` (lines 74-79). -/
def replacer : Replacer :=
  [('/'.toNat, ascii ""), (' '.toNat, ascii "_"), ('*'.toNat, ascii "_"),
   (':'.toNat, ascii "_")]

/-- Go: `func normalize(s string) string` (lines 81-83). -/
def normalize (mapLower : GoString → GoString) (s : GoString) : GoString :=
  ToLower mapLower (replacer.Replace s)

/-- What the case tables are relied on for, on strings that are not all ASCII:
`strings.Map(unicode.ToLower, ·)` brings in none of the four replaced bytes, leaves no
ASCII upper-case letter, and changes nothing when applied to its own result. -/
def CaseTableLaws (mapLower : GoString → GoString) : Prop :=
  ∀ z : GoString, isASCII z = false →
    (∀ b ∈ mapLower z, replacer.lookup b ≠ none → b ∈ z) ∧
    (∀ b ∈ mapLower z, isUpperByte b = false) ∧
    (isASCII (mapLower z) = false → mapLower (mapLower z) = mapLower z)

/-- One pass over the bytes with the case table cut down to its rows below U+0100: the
letters U+00C0-U+00D6 and U+00D8-U+00DE (UTF-8 `C3 80`-`C3 96` and `C3 98`-`C3 9E`) move up
by 32, ASCII letters are lower-cased, every other byte is copied.  The flag says that the
byte before was `C3`. -/
def latin1Loop : GoString → Bool → GoString
  | [], _ => []
  | c :: rest, afterC3 =>
    if afterC3 ∧ 0x80 ≤ c ∧ c ≤ 0x9E ∧ c ≠ 0x97 then (c + 0x20) :: latin1Loop rest false
    else lowerByte c :: latin1Loop rest (decide (c = 0xC3))

/-- The function `strings.Map(unicode.ToLower, ·)` on the valid UTF-8 texts whose runes are
all below U+0100 (there it agrees with Go): `latin1Loop` from the start of the string. -/
def latin1Lower (s : GoString) : GoString := latin1Loop s false

/-! ## The specification of the key normaliser, as the spec words it -/

/-- The single left-to-right pass of the spec: `/` is deleted, space, `*` and `:` become
`_`, every other byte stays. -/
def specPass : GoString → GoString
  | [] => []
  | c :: cs =>
    if c = '/'.toNat then specPass cs
    else if c = ' '.toNat ∨ c = '*'.toNat ∨ c = ':'.toNat then '_'.toNat :: specPass cs
    else c :: specPass cs

/-- Simple ASCII case folding: only `'A'`..`'Z'` change, to `'a'`..`'z'`. -/
def asciiFold (s : GoString) : GoString :=
  s.map (fun c => if 'A'.toNat ≤ c ∧ c ≤ 'Z'.toNat then c + 32 else c)

/-- The normaliser of the spec: the pass, then ASCII case folding. -/
def normalizeSpec (s : GoString) : GoString := asciiFold (specPass s)

/-- The canonical alphabet of the spec: lower-case ASCII letters, ASCII digits and `_`. -/
def canonicalByte (c : Nat) : Bool :=
  (decide ('a'.toNat ≤ c) && decide (c ≤ 'z'.toNat))
    || (decide ('0'.toNat ≤ c) && decide (c ≤ '9'.toNat)) || c == '_'.toNat

/-! ## Package `unicode/utf8` -/

/-- Go: `utf8.RuneError`, U+FFFD. -/
def RuneError : Nat := 0xFFFD

/-- Whether `b` is a UTF-8 continuation byte within the range `lo`..`hi`. -/
def inRange (lo hi b : Nat) : Bool := decide (lo ≤ b) && decide (b ≤ hi)

/-- Go: `utf8.DecodeRuneInString(s)`: the first rune of `s` and its width in bytes; an
invalid or incomplete encoding gives `(RuneError, 1)`, the empty string `(RuneError, 0)`. -/
def DecodeRuneInString (s : GoString) : Nat × Nat :=
  match s with
  | [] => (RuneError, 0)
  | b0 :: rest =>
    if b0 < 0x80 then (b0, 1)
    else if inRange 0xC2 0xDF b0 then
      match rest with
      | b1 :: _ =>
        if inRange 0x80 0xBF b1 then (b0 % 32 * 64 + b1 % 64, 2) else (RuneError, 1)
      | _ => (RuneError, 1)
    else if inRange 0xE0 0xEF b0 then
      match rest with
      | b1 :: b2 :: _ =>
        if inRange (if b0 = 0xE0 then 0xA0 else 0x80) (if b0 = 0xED then 0x9F else 0xBF) b1
            && inRange 0x80 0xBF b2 then
          (b0 % 16 * 4096 + b1 % 64 * 64 + b2 % 64, 3)
        else (RuneError, 1)
      | _ => (RuneError, 1)
    else if inRange 0xF0 0xF4 b0 then
      match rest with
      | b1 :: b2 :: b3 :: _ =>
        if inRange (if b0 = 0xF0 then 0x90 else 0x80) (if b0 = 0xF4 then 0x8F else 0xBF) b1
            && inRange 0x80 0xBF b2 && inRange 0x80 0xBF b3 then
          (b0 % 8 * 262144 + b1 % 64 * 4096 + b2 % 64 * 64 + b3 % 64, 4)
        else (RuneError, 1)
      | _ => (RuneError, 1)
    else (RuneError, 1)

/-- Go: `utf8.AppendRune(nil, r)`: the UTF-8 encoding of `r`; a surrogate or a value above
U+10FFFF is encoded as `RuneError`. -/
def AppendRune (r : Nat) : GoString :=
  if r ≤ 0x7F then [r]
  else if r ≤ 0x7FF then [0xC0 + r / 64, 0x80 + r % 64]
  else if r > 0x10FFFF ∨ (0xD800 ≤ r ∧ r ≤ 0xDFFF) then [0xEF, 0xBF, 0xBD]
  else if r ≤ 0xFFFF then [0xE0 + r / 4096, 0x80 + r / 64 % 64, 0x80 + r % 64]
  else [0xF0 + r / 262144, 0x80 + r / 4096 % 64, 0x80 + r / 64 % 64, 0x80 + r % 64]

/-! ## Package `strconv`: `Quote`, which formats the verb `%q` -/

/-- Go: `lowerhex[n]` with `lowerhex = "0123456789abcdef"`. -/
def lowerhex (n : Nat) : Nat := (ascii "0123456789abcdef").getD n 0

/-- Go: `strconv.IsPrint(r)`.  Below U+0100 it is written out; above, it reads the Unicode
tables, the parameter `printTable`. -/
def IsPrint (printTable : Nat → Bool) (r : Nat) : Bool :=
  if r ≤ 0xFF then
    if 0x20 ≤ r ∧ r ≤ 0x7E then true
    else if 0xA1 ≤ r then r != 0xAD
    else false
  else printTable r

/-- Go: `appendEscapedRune(nil, r, '"', false, false)`. -/
def appendEscapedRune (printTable : Nat → Bool) (r : Nat) : GoString :=
  if r = '"'.toNat ∨ r = '\\'.toNat then ['\\'.toNat, r]
  else if IsPrint printTable r then AppendRune r
  else if r = 7 then ascii "\\a"
  else if r = 8 then ascii "\\b"
  else if r = 12 then ascii "\\f"
  else if r = 10 then ascii "\\n"
  else if r = 13 then ascii "\\r"
  else if r = 9 then ascii "\\t"
  else if r = 11 then ascii "\\v"
  else if r < ' '.toNat ∨ r = 0x7F then
    ascii "\\x" ++ [lowerhex (r / 16 % 16), lowerhex (r % 16)]
  else if r > 0x10FFFF ∨ (0xD800 ≤ r ∧ r ≤ 0xDFFF) then ascii "\\ufffd"
  else if r < 0x10000 then
    ascii "\\u" ++ [lowerhex (r / 4096 % 16), lowerhex (r / 256 % 16), lowerhex (r / 16 % 16),
      lowerhex (r % 16)]
  else
    ascii "\\U" ++ [lowerhex (r / 268435456 % 16), lowerhex (r / 16777216 % 16),
      lowerhex (r / 1048576 % 16), lowerhex (r / 65536 % 16), lowerhex (r / 4096 % 16),
      lowerhex (r / 256 % 16), lowerhex (r / 16 % 16), lowerhex (r % 16)]

/-- The loop of `appendQuotedWith` over the runes of `s`; `skip` counts the bytes still
to pass over that belong to the rune decoded last. -/
def quoteLoop (printTable : Nat → Bool) : GoString → Nat → GoString
  | [], _ => []
  | _ :: rest, skip + 1 => quoteLoop printTable rest skip
  | b :: rest, 0 =>
    let d := if b < 0x80 then (b, 1) else DecodeRuneInString (b :: rest)
    (if d.2 = 1 ∧ d.1 = RuneError then ascii "\\x" ++ [lowerhex (b / 16 % 16), lowerhex (b % 16)]
     else appendEscapedRune printTable d.1) ++ quoteLoop printTable rest (d.2 - 1)

/-- Go: `strconv.Quote(s)`, what `fmt` writes for `%q` applied to the string `s`. -/
def Quote (printTable : Nat → Bool) (s : GoString) : GoString :=
  '"'.toNat :: quoteLoop printTable s 0 ++ ['"'.toNat]

/-! ## Rendering the selectors (`oracle.go`, lines 40-49) -/

/-- The loop of `String`: `i` is the index of the next selector, `buf` the buffer. -/
def StringLoop {ρ : Type} (printTable : Nat → Bool) :
    waitEventNames ρ → Nat → GoString → GoString
  | [], _, buf => buf
  | w :: ws, i, buf =>
    let buf1 := if i > 0 then buf ++ ascii "," else buf
    StringLoop printTable ws (i + 1) (buf1 ++ Quote printTable w.Name)

/-- Go: `func (we *waitEventNames) String() string`. -/
def waitEventNames.String {ρ : Type} (printTable : Nat → Bool) (we : waitEventNames ρ) :
    GoString :=
  StringLoop printTable we 0 []

/-- The text of the spec for one selector: a double quote, the name with a backslash put
before each of its double quotes, a double quote. -/
def quoteSpec (s : GoString) : GoString :=
  '"'.toNat :: s.flatMap (fun c => if c = '"'.toNat then ['\\'.toNat, c] else [c])
    ++ ['"'.toNat]

/-- Whether a text between double quotes is read as escape sequences and plain bytes with
no bare double quote: a backslash takes the byte after it with it, and a double quote is
met only as such a byte.  The flag says that the byte before was such a backslash. -/
def quotesEscaped : GoString → Bool → Bool
  | [], esc => !esc
  | _ :: cs, true => quotesEscaped cs false
  | c :: cs, false =>
    if c = '\\'.toNat then quotesEscaped cs true
    else if c = '"'.toNat then false
    else quotesEscaped cs false

/-! ## Selector lists used as concrete inputs -/

/-- The selector of the test `TestWaitEventNameMatch`. -/
def mackerelAgent : GoString := ascii "/^(mackerel|agent)$/"

/-- The receiver after `Set("/^(mackerel|agent)$/")` on an empty list. -/
def mackerelAgentList : waitEventNames Re :=
  (waitEventNames.Set fragment [] mackerelAgent).1

/-- The receiver after `Set("/ab/")` on an empty list. -/
def abList : waitEventNames Re := (waitEventNames.Set fragment [] (ascii "/ab/")).1

/-- The receiver after `Set("/^a$/")` on an empty list. -/
def anchoredList : waitEventNames Re := (waitEventNames.Set fragment [] (ascii "/^a$/")).1

/-- The receiver of `TestWaitEventNameMatch` after its four `Set` calls. -/
def testList : waitEventNames Re :=
  (waitEventNames.SetAll fragment []
    [ascii "foo", ascii "bar", ascii "\"baz\"", mackerelAgent]).1

/-! ## Go maps -/

/-- A Go `map[string]T`: its entries, with pairwise distinct keys.  The empty list is the
map made by `make` and also what ranging over a nil map sees. -/
abbrev GoMap (V : Type) := List (GoString × V)

/-- The keys of a map. -/
def GoMap.keys {V : Type} (m : GoMap V) : List GoString := m.map Prod.fst

/-- Go: `m[k]` with its presence flag: the value bound to `k`, if any. -/
def GoMap.get {V : Type} (m : GoMap V) (k : GoString) : Option V := List.lookup k m

/-- Go: `m[k] = v`: the binding of `k` is replaced, or added when `k` is not a key yet. -/
def GoMap.set {V : Type} : GoMap V → GoString → V → GoMap V
  | [], k, v => [(k, v)]
  | (k1, v1) :: rest, k, v =>
    if k1 = k then (k, v) :: rest else (k1, v1) :: GoMap.set rest k v

/-- Go: `func mergeStat(dst, src map[string]interface{})` (lines 188-192): the loop
`for k, v := range src { dst[k] = v }` visits the entries of `src` in the order of the
list; `dst` after the loop is returned. -/
def mergeStat {V : Type} (dst src : GoMap V) : GoMap V :=
  src.foldl (fun d kv => GoMap.set d kv.1 kv.2) dst

/-! ## The database, as the program sees it

Package `database/sql` and the Oracle driver are outside the repository.  A database is
modelled by what `db.Query` gives for each of the three statements of the program:
an error, or the rows that `rows.Next` yields in order, each of which `rows.Scan` either
decodes or rejects with an error.  The measured values are `float64` in Go; the program
only stores them, and they are values of an arbitrary type `V` here. -/

/-- The three SQL statements of the program. -/
inductive Statement where
  | resourceLimit
  | waitClass
  | waitEvent
deriving DecidableEq

/-- A decoded row of the wait-event statement: the columns `wait_class`, `wait_name`,
`cnt`, `avgms` (Go: `class, name, cnt, avgms`). -/
structure WaitEventRow (V : Type) where
  wait_class : GoString
  wait_name : GoString
  cnt : V
  avgms : V
deriving DecidableEq

/-- A database: the outcome of `db.Query` for each statement. -/
structure DB (E V : Type) where
  resourceLimit : Except E (List (Except E (GoString × V)))
  waitClass : Except E (List (Except E (GoString × V)))
  waitEvent : Except E (List (Except E (WaitEventRow V)))

/-- What a fetch function hands back: Go's pair `(map[string]interface{}, error)`, where
`none` is nil, and the statements it sent to the database, in order. -/
structure Fetched (E V : Type) where
  stat : Option (GoMap V)
  err : Option E
  queries : List Statement
deriving DecidableEq

/-! ## The metric source adapters and `FetchMetrics` (`oracle.go`, lines 85-233) -/

/-- The loop `for rows.Next() { ... }` of `fetchResource` and of `fetchWaitClass`: a row
that fails to scan ends the function with `(nil, err)`, a decoded row `(name, value)` does
`stat[normalize(name)] = value`. -/
def scanNamed {E V : Type} (mapLower : GoString → GoString) :
    List (Except E (GoString × V)) → GoMap V → Option (GoMap V) × Option E
  | [], stat => (some stat, none)
  | .error err :: _, _ => (none, some err)
  | .ok (name, value) :: rows, stat =>
    scanNamed mapLower rows (GoMap.set stat (normalize mapLower name) value)

/-- Go: `func fetchResource(db *sql.DB) (map[string]interface{}, error)`. -/
def fetchResource {E V : Type} (mapLower : GoString → GoString) (db : DB E V) : Fetched E V :=
  match db.resourceLimit with
  | .error err => ⟨none, some err, [.resourceLimit]⟩
  | .ok rows =>
    let r := scanNamed mapLower rows []
    ⟨r.1, r.2, [.resourceLimit]⟩

/-- Go: `func fetchWaitClass(db *sql.DB) (map[string]interface{}, error)`. -/
def fetchWaitClass {E V : Type} (mapLower : GoString → GoString) (db : DB E V) : Fetched E V :=
  match db.waitClass with
  | .error err => ⟨none, some err, [.waitClass]⟩
  | .ok rows =>
    let r := scanNamed mapLower rows []
    ⟨r.1, r.2, [.waitClass]⟩

/-- The loop `for rows.Next() { ... }` of `fetchWaitEvents` (lines 171-183). -/
def scanWaitEvents {ρ ε E V : Type} (re : RegexpPkg ρ ε) (mapLower : GoString → GoString)
    (optWaitEvents : waitEventNames ρ) :
    List (Except E (WaitEventRow V)) → GoMap V → Option (GoMap V) × Option E
  | [], stat => (some stat, none)
  | .error err :: _, _ => (none, some err)
  | .ok row :: rows, stat =>
    if waitEventNames.Match re optWaitEvents row.wait_name then
      scanWaitEvents re mapLower optWaitEvents rows
        (GoMap.set
          (GoMap.set stat (normalize mapLower row.wait_name ++ ascii "_count") row.cnt)
          (normalize mapLower row.wait_name ++ ascii "_latency") row.avgms)
    else scanWaitEvents re mapLower optWaitEvents rows stat

/-- Go: `func fetchWaitEvents(db *sql.DB) (map[string]interface{}, error)`; the global
`optWaitEvents` is a parameter. -/
def fetchWaitEvents {ρ ε E V : Type} (re : RegexpPkg ρ ε) (mapLower : GoString → GoString)
    (optWaitEvents : waitEventNames ρ) (db : DB E V) : Fetched E V :=
  if optWaitEvents.length = 0 then ⟨some [], none, []⟩
  else
    match db.waitEvent with
    | .error err => ⟨none, some err, [.waitEvent]⟩
    | .ok rows =>
      let r := scanWaitEvents re mapLower optWaitEvents rows []
      ⟨r.1, r.2, [.waitEvent]⟩

/-- Go: `func (p OraclePlugin) FetchMetrics() (map[string]interface{}, error)`.  The
outcome of `sql.Open("oci8", p.DSN)` is the parameter `opened`; a nil map is ranged over
as an empty one. -/
def FetchMetrics {ρ ε E V : Type} (re : RegexpPkg ρ ε) (mapLower : GoString → GoString)
    (optWaitEvents : waitEventNames ρ) (opened : Except E (DB E V)) : Fetched E V :=
  match opened with
  | .error err => ⟨none, some err, []⟩
  | .ok db =>
    let statResource := fetchResource mapLower db
    match statResource.err with
    | some err => ⟨none, some err, statResource.queries⟩
    | none =>
      let statWaitClass := fetchWaitClass mapLower db
      match statWaitClass.err with
      | some err => ⟨none, some err, statResource.queries ++ statWaitClass.queries⟩
      | none =>
        let statWaitEvents := fetchWaitEvents re mapLower optWaitEvents db
        match statWaitEvents.err with
        | some err =>
          ⟨none, some err,
            statResource.queries ++ statWaitClass.queries ++ statWaitEvents.queries⟩
        | none =>
          ⟨some (mergeStat (mergeStat (mergeStat [] (statResource.stat.getD []))
              (statWaitClass.stat.getD [])) (statWaitEvents.stat.getD [])),
            statWaitEvents.err,
            statResource.queries ++ statWaitClass.queries ++ statWaitEvents.queries⟩

/-! ## Graph definitions (`oracle.go`, lines 68-72, 194-200, 235-277) -/

/-- Go: `type OraclePlugin struct { Prefix string; DSN string }`. -/
structure OraclePlugin where
  Prefix : GoString
  DSN : GoString

/-- Go: `mp.Metrics`, the fields the program sets. -/
structure Metrics where
  Name : GoString
  Label : GoString
  Diff : Bool
  Stacked : Bool
deriving DecidableEq

/-- Go: `mp.Graphs`. -/
structure Graphs where
  Label : GoString
  Unit : GoString
  Metrics : List Metrics
deriving DecidableEq

/-- Go: `func (p OraclePlugin) MetricKeyPrefix() string`. -/
def OraclePlugin.MetricKeyPrefix (p : OraclePlugin) : GoString :=
  if p.Prefix = ascii "" then ascii "oracle" else p.Prefix

/-- The map literal of `GraphDefinition` (lines 239-262), for a label prefix. -/
def staticGraphs (labelPrefix : GoString) : GoMap Graphs :=
  [(ascii "resource",
      { Label := labelPrefix ++ ascii " Resource Limit"
        Unit := ascii "integer"
        Metrics := [⟨ascii "processes", ascii "Processes", false, false⟩,
                    ⟨ascii "sessions", ascii "Sessions", false, false⟩] }),
   (ascii "waitclass",
      { Label := labelPrefix ++ ascii " Wait Class"
        Unit := ascii "float"
        Metrics := [⟨ascii "administrative", ascii "Administrative", false, false⟩,
                    ⟨ascii "cpu", ascii "CPU", false, false⟩,
                    ⟨ascii "cpu_os", ascii "CPU/OS", false, false⟩,
                    ⟨ascii "concurrency", ascii "Concurrency", false, false⟩,
                    ⟨ascii "configuration", ascii "Configuration", false, false⟩,
                    ⟨ascii "network", ascii "Network", false, false⟩,
                    ⟨ascii "other", ascii "Other", false, false⟩,
                    ⟨ascii "scheduler", ascii "Scheduler", false, false⟩] })]

/-- The group that the loop of lines 264-274 stores for the selector `e`. -/
def waitEventGraph {ρ : Type} (mapLower : GoString → GoString) (labelPrefix : GoString)
    (e : waitEventName ρ) : Graphs :=
  { Label := labelPrefix ++ ascii " Wait Events: " ++ e.Name
    Unit := ascii "float"
    Metrics := [⟨normalize mapLower e.Name ++ ascii "_count", ascii "Count", false, false⟩,
                ⟨normalize mapLower e.Name ++ ascii "_latency", ascii "Latency", false,
                  false⟩] }

/-- The loop `for _, e := range optWaitEvents { ... graphdef[name] = ... }`. -/
def graphLoop {ρ : Type} (mapLower : GoString → GoString) (labelPrefix : GoString) :
    waitEventNames ρ → GoMap Graphs → GoMap Graphs
  | [], graphdef => graphdef
  | e :: es, graphdef =>
    graphLoop mapLower labelPrefix es
      (GoMap.set graphdef (normalize mapLower e.Name) (waitEventGraph mapLower labelPrefix e))

/-- Go: `func (p OraclePlugin) GraphDefinition() map[string]mp.Graphs`.  `Title` stands for
`strings.Title`, which reads the Unicode tables; the global `optWaitEvents` is a
parameter. -/
def OraclePlugin.GraphDefinition {ρ : Type} (Title : GoString → GoString)
    (mapLower : GoString → GoString) (optWaitEvents : waitEventNames ρ) (p : OraclePlugin) :
    GoMap Graphs :=
  graphLoop mapLower (Title p.MetricKeyPrefix) optWaitEvents
    (staticGraphs (Title p.MetricKeyPrefix))

/-! ## A concrete title function, plugin and database used as inputs -/

/-- Go: `isSeparator(r)` of package `strings` on an ASCII rune: letters, digits and `_` are
no separators, every other ASCII rune is one. -/
def isSeparator (r : Nat) : Bool :=
  !((decide ('0'.toNat ≤ r) && decide (r ≤ '9'.toNat))
    || (decide ('a'.toNat ≤ r) && decide (r ≤ 'z'.toNat))
    || (decide ('A'.toNat ≤ r) && decide (r ≤ 'Z'.toNat)) || r == '_'.toNat)

/-- The loop of `strings.Title` over ASCII bytes: a byte that follows a separator is put
in upper case when it is a lower-case letter. -/
def titleLoop : GoString → Nat → GoString
  | [], _ => []
  | c :: cs, prev =>
    (if isSeparator prev ∧ 'a'.toNat ≤ c ∧ c ≤ 'z'.toNat then c - ('a'.toNat - 'A'.toNat)
      else c) :: titleLoop cs c

/-- Go: `strings.Title(s)` on strings of ASCII bytes (there it agrees with Go). -/
def asciiTitle (s : GoString) : GoString := titleLoop s ' '.toNat

/-- The plugin with the default values of the flags `-metric-key-prefix` and `-dsn`. -/
def defaultPlugin : OraclePlugin := ⟨ascii "oracle", ascii "system/manager"⟩

/-- Four decoded wait-event rows: `foo` twice, a name no selector matches, `mackerel`. -/
def demoRows : List (WaitEventRow Nat) :=
  [⟨ascii "Other", ascii "foo", 1, 2⟩, ⟨ascii "Other", ascii "zzz", 3, 4⟩,
   ⟨ascii "Other", ascii "mackerel", 5, 6⟩, ⟨ascii "Other", ascii "foo", 7, 8⟩]

/-- A database whose three statements succeed; the wait-event statement gives `demoRows`
followed by rows named `processes` and `CPU`. -/
def demoDB : DB String Nat where
  resourceLimit := .ok [.ok (ascii "processes", 40), .ok (ascii "sessions", 50)]
  waitClass := .ok [.ok (ascii "CPU", 11), .ok (ascii "User I/O", 12)]
  waitEvent := .ok ((demoRows ++ ([⟨ascii "Other", ascii "processes", 91, 92⟩,
    ⟨ascii "Other", ascii "CPU", 93, 94⟩] : List (WaitEventRow Nat))).map .ok)

/-- The database `demoDB` with only `demoRows` as wait-event rows. -/
def demoRowsDB : DB String Nat :=
  { demoDB with waitEvent := .ok (demoRows.map .ok) }

/-- The selectors `processes` and `CPU`, whose normalised names are fixed metric keys. -/
def fixedKeyList : waitEventNames Re :=
  (waitEventNames.SetAll fragment [] [ascii "processes", ascii "CPU"]).1

/-- The receiver after `Set("foo")`, `Set("bar")`, `Set("zzz")`: literal selectors only. -/
def literalList : waitEventNames Re :=
  (waitEventNames.SetAll fragment [] [ascii "foo", ascii "bar", ascii "zzz"]).1

/-- The receiver after `Set("/foo/")`: one pattern selector, whose normalised name is
`foo`. -/
def slashFooList : waitEventNames Re := (waitEventNames.Set fragment [] (ascii "/foo/")).1

/-- The database `demoDB` with a wait-class statement that fails. -/
def failingDB : DB String Nat :=
  { demoDB with waitClass := .error "ORA-00942: table or view does not exist" }

end mporacle

/-! ## `Set` and `Match` -/

namespace mporacle

theorem delimited_ne_nil {value : GoString} (h : delimited value = true) : value ≠ [] := by
  intro hv
  subst hv
  simp [delimited] at h

theorem Set_nil {ρ ε : Type} (re : RegexpPkg ρ ε) (we : waitEventNames ρ) :
    waitEventNames.Set re we [] = (we, some (.New "event name must not be empty")) := by
  simp [waitEventNames.Set]

theorem Set_literal {ρ ε : Type} (re : RegexpPkg ρ ε) (we : waitEventNames ρ)
    {value : GoString} (hne : value ≠ []) (hlit : delimited value = false) :
    waitEventNames.Set re we value = (we ++ [⟨value, none⟩], none) := by
  simp [waitEventNames.Set, hne, hlit]

theorem Set_delimited {ρ ε : Type} (re : RegexpPkg ρ ε) (we : waitEventNames ρ)
    {value : GoString} (h : delimited value = true) :
    waitEventNames.Set re we value =
      match re.Compile (slice value 1 (value.length - 2)) with
      | .error err => (we, some (.regexp err))
      | .ok p => (we ++ [⟨value, some p⟩], none) := by
  simp [waitEventNames.Set, delimited_ne_nil h, h]

/-- The expression handed to `regexp.Compile` is `value` without its first byte and without
its last two bytes. -/
theorem slice_delimited (value : GoString) :
    slice value 1 (value.length - 2) = (value.drop 1).take (value.length - 3) := by
  simp only [slice, List.drop_take]
  congr 1

/-- When `Set` returns no error it has appended one selector named `value`. -/
theorem Set_ok {ρ ε : Type} (re : RegexpPkg ρ ε) (we : waitEventNames ρ) (value : GoString)
    (h : (waitEventNames.Set re we value).2 = none) :
    ∃ w : waitEventName ρ, (waitEventNames.Set re we value).1 = we ++ [w] ∧ w.Name = value := by
  unfold waitEventNames.Set at h ⊢
  by_cases hv : value = []
  · simp [hv] at h
  · by_cases hd : delimited value = true
    · simp only [hv, hd, if_true, if_false] at h ⊢
      cases hc : re.Compile (slice value 1 (value.length - 2)) with
      | error err => simp [hc] at h
      | ok p => exact ⟨⟨value, some p⟩, by simp⟩
    · simp only [hv, hd, if_false] at h ⊢
      exact ⟨⟨value, none⟩, by simp⟩

/-- When `Set` returns an error the receiver is unchanged. -/
theorem Set_error {ρ ε : Type} (re : RegexpPkg ρ ε) (we : waitEventNames ρ) (value : GoString)
    (h : (waitEventNames.Set re we value).2 ≠ none) :
    (waitEventNames.Set re we value).1 = we := by
  unfold waitEventNames.Set at h ⊢
  by_cases hv : value = []
  · simp [hv]
  · by_cases hd : delimited value = true
    · simp only [hv, hd, if_true, if_false] at h ⊢
      cases hc : re.Compile (slice value 1 (value.length - 2)) with
      | error err => simp
      | ok p => simp [hc] at h
    · simp [hv, hd] at h

theorem Match_append {ρ ε : Type} (re : RegexpPkg ρ ε) (a b : waitEventNames ρ)
    (name : GoString) :
    waitEventNames.Match re (a ++ b) name =
      (waitEventNames.Match re a name || waitEventNames.Match re b name) := by
  induction a with
  | nil => simp [waitEventNames.Match]
  | cons w ws ih =>
    simp only [List.cons_append, waitEventNames.Match, ih]
    split <;> [rfl; (split <;> simp [ih])]

theorem Match_self {ρ ε : Type} (re : RegexpPkg ρ ε) (w : waitEventName ρ)
    (ws : waitEventNames ρ) : waitEventNames.Match re (w :: ws) w.Name = true := by
  simp [waitEventNames.Match]

/-- C1: at the selector of the repository's test, `/^(mackerel|agent)$/`, `Set` stores the
compiled form of `^(mackerel|agent)`, the text between the delimiters without its last
byte `$`, which is another expression than `^(mackerel|agent)$`; the stored selector so
matches `mackerelx`, which `^(mackerel|agent)$` does not match. -/
theorem Set_compiles_expression_without_its_last_byte :
    waitEventNames.Set fragment [] mackerelAgent
        = ([⟨mackerelAgent, (fragment.Compile (ascii "^(mackerel|agent)")).toOption⟩], none)
      ∧ (fragment.Compile (ascii "^(mackerel|agent)")).toOption
        ≠ (fragment.Compile (ascii "^(mackerel|agent)$")).toOption
      ∧ waitEventNames.Match fragment mackerelAgentList (ascii "mackerelx") = true
      ∧ (fragment.Compile (ascii "^(mackerel|agent)$")).toOption.map
          (fun r => fragment.MatchString r (ascii "mackerelx")) = some false := by
  decide

/-- C2 (counterexample): `Set("/ab/")` succeeds, the whole of `xab` is not matched by the
expression `ab` between the delimiters, and `Match("xab")` is true on the resulting list:
`Match` looks for a match anywhere in the name. -/
theorem Match_pattern_is_a_search :
    (waitEventNames.Set fragment [] (ascii "/ab/")).2 = none
      ∧ (fragment.Compile (ascii "ab")).toOption = some (.cat (.lit 'a'.toNat) (.lit 'b'.toNat))
      ∧ Re.fullMatch (.cat (.lit 'a'.toNat) (.lit 'b'.toNat)) (ascii "xab") = false
      ∧ waitEventNames.Match fragment abList (ascii "xab") = true := by
  decide

/-- C2 (amended): for every delimited value that `Set` accepts on an empty list, the list
holds exactly that selector with a compiled expression `p`, and for every name
`Match(name)` is true exactly when `MatchString` finds a match of `p` in `name` or `name`
is the text of the selector. -/
theorem Match_single_pattern {ρ ε : Type} (re : RegexpPkg ρ ε) (value : GoString)
    (hd : delimited value = true) (hok : (waitEventNames.Set re [] value).2 = none) :
    ∃ p : ρ, (waitEventNames.Set re [] value).1 = [⟨value, some p⟩] ∧
      ∀ name : GoString, waitEventNames.Match re (waitEventNames.Set re [] value).1 name
        = (re.MatchString p name || decide (value = name)) := by
  rw [Set_delimited re [] hd] at hok ⊢
  cases hc : re.Compile (slice value 1 (value.length - 2)) with
  | error err => simp [hc] at hok
  | ok p =>
    refine ⟨p, by simp, fun name => ?_⟩
    simp only [List.nil_append, waitEventNames.Match]
    cases re.MatchString p name <;> simp

/-- C2 (witness): the selector of the test, with the three names the test tries. -/
theorem Match_single_pattern_witness :
    delimited mackerelAgent = true ∧ (waitEventNames.Set fragment [] mackerelAgent).2 = none
      ∧ (∃ p : Re, (waitEventNames.Set fragment [] mackerelAgent).1 = [⟨mackerelAgent, some p⟩] ∧
          ∀ name : GoString,
            waitEventNames.Match fragment (waitEventNames.Set fragment [] mackerelAgent).1 name
              = (fragment.MatchString p name || decide (mackerelAgent = name)))
      ∧ waitEventNames.Match fragment mackerelAgentList (ascii "mackerel") = true
      ∧ waitEventNames.Match fragment mackerelAgentList (ascii "agent") = true
      ∧ waitEventNames.Match fragment mackerelAgentList (ascii "macker") = false :=
  ⟨by decide, by decide, Match_single_pattern fragment mackerelAgent (by decide) (by decide),
    by decide, by decide, by decide⟩

/-- C3 (counterexample): after `Set("/^a$/")` the list holds one pattern selector and no
literal selector, its compiled expression does not match the name `/^a$/`, and
`Match("/^a$/")` is true. -/
theorem Match_true_on_the_text_of_a_pattern_selector :
    anchoredList = [⟨ascii "/^a$/", some (.cat .bol (.lit 'a'.toNat))⟩]
      ∧ fragment.MatchString (.cat .bol (.lit 'a'.toNat)) (ascii "/^a$/") = false
      ∧ waitEventNames.Match fragment anchoredList (ascii "/^a$/") = true := by
  decide

/-- C3 (amended): `Match(name)` is true exactly when some selector of the list, literal or
pattern, has `name` as its text, or some pattern selector has a compiled expression that
`MatchString` finds in `name`. -/
theorem Match_iff {ρ ε : Type} (re : RegexpPkg ρ ε) (we : waitEventNames ρ) (name : GoString) :
    waitEventNames.Match re we name = true ↔
      ∃ w ∈ we, w.Name = name ∨ ∃ p : ρ, w.Pattern = some p ∧ re.MatchString p name = true := by
  induction we with
  | nil => simp [waitEventNames.Match]
  | cons w ws ih =>
    simp only [waitEventNames.Match, List.mem_cons, exists_eq_or_imp]
    cases hp : w.Pattern with
    | none =>
      by_cases hn : w.Name = name <;> simp [hn, ih]
    | some p =>
      by_cases hm : re.MatchString p name = true
      · simp [hm]
      · by_cases hn : w.Name = name <;> simp [hm, hn, ih]

/-- C4: on every list, `Set(s)` for a non-empty literal `s` returns no error, and `Match(s)`
is true on the list it leaves. -/
theorem Match_after_Set_literal {ρ ε : Type} (re : RegexpPkg ρ ε) (we : waitEventNames ρ)
    (s : GoString) (hne : s ≠ []) (hlit : delimited s = false) :
    (waitEventNames.Set re we s).2 = none ∧
      waitEventNames.Match re (waitEventNames.Set re we s).1 s = true := by
  rw [Set_literal re we hne hlit]
  refine ⟨rfl, ?_⟩
  simp only [Match_append]
  have h := Match_self re (⟨s, none⟩ : waitEventName ρ) []
  simp only at h
  simp [h]

/-- C4 (witness): the literal `foo` added to the list of the test. -/
theorem Match_after_Set_literal_witness :
    ascii "foo" ≠ [] ∧ delimited (ascii "foo") = false
      ∧ (waitEventNames.Set fragment testList (ascii "foo")).2 = none
      ∧ waitEventNames.Match fragment (waitEventNames.Set fragment testList (ascii "foo")).1
          (ascii "foo") = true :=
  ⟨by decide, by decide,
    Match_after_Set_literal fragment testList (ascii "foo") (by decide) (by decide)⟩

/-- C5: on every list `Set("")` returns an error, and `Set(s)` returns no error for every
non-empty `s` that is not longer than 2 bytes with a leading and a trailing `/`. -/
theorem Set_error_iff_empty_on_literals {ρ ε : Type} (re : RegexpPkg ρ ε)
    (we : waitEventNames ρ) :
    (waitEventNames.Set re we []).2 = some (.New "event name must not be empty") ∧
      ∀ s : GoString, s ≠ [] → delimited s = false → (waitEventNames.Set re we s).2 = none := by
  refine ⟨by rw [Set_nil], fun s hne hlit => ?_⟩
  rw [Set_literal re we hne hlit]

/-- C6: `Set` either returns an error and leaves the list as it was, or returns no error
and leaves the list followed by one selector whose `Name` is `value`; it returns an error
exactly for the empty value and for a delimited value whose expression does not compile. -/
theorem Set_atomic {ρ ε : Type} (re : RegexpPkg ρ ε) (we : waitEventNames ρ)
    (value : GoString) :
    ((waitEventNames.Set re we value).2 ≠ none → (waitEventNames.Set re we value).1 = we) ∧
    ((waitEventNames.Set re we value).2 = none →
      ∃ w : waitEventName ρ,
        (waitEventNames.Set re we value).1 = we ++ [w] ∧ w.Name = value) ∧
    ((waitEventNames.Set re we value).2 ≠ none ↔
      value = [] ∨ (delimited value = true ∧
        ∃ err : ε, re.Compile (slice value 1 (value.length - 2)) = .error err)) := by
  refine ⟨Set_error re we value, Set_ok re we value, ?_⟩
  by_cases hv : value = []
  · subst hv
    simp [Set_nil]
  · by_cases hd : delimited value = true
    · rw [Set_delimited re we hd]
      cases hc : re.Compile (slice value 1 (value.length - 2)) with
      | error err => simp [hd]
      | ok p => simp [hv]
    · have hd2 : delimited value = false := by simpa using hd
      rw [Set_literal re we hv hd2]
      simp [hv, hd2]

/-! ## The key normaliser -/

theorem lookup_replacer (b : Nat) :
    replacer.lookup b =
      if b = 47 then some []
      else if b = 32 ∨ b = 42 ∨ b = 58 then some [95] else none := by
  have h1 : '/'.toNat = 47 := rfl
  have h2 : ' '.toNat = 32 := rfl
  have h3 : '*'.toNat = 42 := rfl
  have h4 : ':'.toNat = 58 := rfl
  have h5 : ascii "_" = [95] := rfl
  have h6 : ascii "" = [] := rfl
  simp only [replacer, h1, h2, h3, h4, h5, h6, List.lookup]
  by_cases e1 : b = 47
  · subst e1; rfl
  · by_cases e2 : b = 32
    · subst e2; rfl
    · by_cases e3 : b = 42
      · subst e3; rfl
      · by_cases e4 : b = 58
        · subst e4; rfl
        · have b1 : (b == 47) = false := by simpa using e1
          have b2 : (b == 32) = false := by simpa using e2
          have b3 : (b == 42) = false := by simpa using e3
          have b4 : (b == 58) = false := by simpa using e4
          simp [b1, b2, b3, b4, e1, e2, e3, e4]

theorem lookup_replacer_eq_none (b : Nat) :
    replacer.lookup b = none ↔ b ≠ 47 ∧ b ≠ 32 ∧ b ≠ 42 ∧ b ≠ 58 := by
  rw [lookup_replacer]
  by_cases e1 : b = 47
  · simp [e1]
  · by_cases e2 : b = 32 ∨ b = 42 ∨ b = 58
    · simp only [e1, e2, if_true, if_false]
      constructor
      · intro h; cases h
      · intro h; omega
    · simp only [e1, e2, if_false]
      constructor
      · intro _; omega
      · intro _; trivial

theorem Replace_cons (r : Replacer) (c : Nat) (cs : GoString) :
    Replacer.Replace r (c :: cs) =
      (match r.lookup c with
        | some new => new
        | none => [c]) ++ Replacer.Replace r cs := by
  simp [Replacer.Replace]

/-- The replacer of the program is the single pass of the spec. -/
theorem Replace_eq_specPass (s : GoString) : replacer.Replace s = specPass s := by
  have h1 : '/'.toNat = 47 := rfl
  have h2 : ' '.toNat = 32 := rfl
  have h3 : '*'.toNat = 42 := rfl
  have h4 : ':'.toNat = 58 := rfl
  have h5 : '_'.toNat = 95 := rfl
  induction s with
  | nil => rfl
  | cons c cs ih =>
    rw [Replace_cons, ih, lookup_replacer]
    simp only [specPass, h1, h2, h3, h4, h5]
    by_cases e1 : c = 47
    · simp [e1]
    · by_cases e2 : c = 32 ∨ c = 42 ∨ c = 58
      · simp [e1, e2]
      · simp [e1, e2]

theorem specPass_clean (s : GoString) : ∀ b ∈ specPass s, replacer.lookup b = none := by
  have h1 : '/'.toNat = 47 := rfl
  have h2 : ' '.toNat = 32 := rfl
  have h3 : '*'.toNat = 42 := rfl
  have h4 : ':'.toNat = 58 := rfl
  have h5 : '_'.toNat = 95 := rfl
  induction s with
  | nil => simp [specPass]
  | cons c cs ih =>
    simp only [specPass, h1, h2, h3, h4, h5]
    by_cases e1 : c = 47
    · simpa [e1] using ih
    · by_cases e2 : c = 32 ∨ c = 42 ∨ c = 58
      · simp only [e1, e2, if_true, if_false, List.mem_cons]
        rintro b (hb | hb)
        · subst hb; rw [lookup_replacer_eq_none]; omega
        · exact ih b hb
      · simp only [e1, e2, if_false, List.mem_cons]
        rintro b (hb | hb)
        · subst hb; rw [lookup_replacer_eq_none]; omega
        · exact ih b hb

theorem specPass_of_clean (s : GoString) (h : ∀ b ∈ s, replacer.lookup b = none) :
    specPass s = s := by
  have h1 : '/'.toNat = 47 := rfl
  have h2 : ' '.toNat = 32 := rfl
  have h3 : '*'.toNat = 42 := rfl
  have h4 : ':'.toNat = 58 := rfl
  induction s with
  | nil => rfl
  | cons c cs ih =>
    have hc := (lookup_replacer_eq_none c).1 (h c (List.mem_cons_self c cs))
    have e1 : ¬ c = 47 := hc.1
    have e2 : ¬ (c = 32 ∨ c = 42 ∨ c = 58) := by omega
    simp only [specPass, h1, h2, h3, h4, e1, e2, if_false]
    rw [ih (fun b hb => h b (List.mem_cons_of_mem c hb))]

theorem specPass_isASCII (s : GoString) (h : isASCII s = true) : isASCII (specPass s) = true := by
  have h1 : '/'.toNat = 47 := rfl
  have h2 : ' '.toNat = 32 := rfl
  have h3 : '*'.toNat = 42 := rfl
  have h4 : ':'.toNat = 58 := rfl
  have h5 : '_'.toNat = 95 := rfl
  induction s with
  | nil => rfl
  | cons c cs ih =>
    simp only [isASCII, List.all_cons, Bool.and_eq_true, decide_eq_true_eq] at h
    have ih2 := ih h.2
    simp only [specPass, h1, h2, h3, h4, h5]
    by_cases e1 : c = 47
    · simpa [e1] using ih2
    · by_cases e2 : c = 32 ∨ c = 42 ∨ c = 58
      · simp only [e1, e2, if_true, if_false, isASCII, List.all_cons, Bool.and_eq_true,
          decide_eq_true_eq]
        exact ⟨by omega, ih2⟩
      · simp only [e1, e2, if_false, isASCII, List.all_cons, Bool.and_eq_true,
          decide_eq_true_eq]
        exact ⟨h.1, ih2⟩

theorem isUpperByte_iff (c : Nat) : isUpperByte c = true ↔ 65 ≤ c ∧ c ≤ 90 := by
  have h1 : 'A'.toNat = 65 := rfl
  have h2 : 'Z'.toNat = 90 := rfl
  simp [isUpperByte, h1, h2]

theorem lowerByte_eq (c : Nat) : lowerByte c = if 65 ≤ c ∧ c ≤ 90 then c + 32 else c := by
  have h1 : 'a'.toNat - 'A'.toNat = 32 := rfl
  unfold lowerByte
  by_cases h : isUpperByte c = true
  · rw [if_pos h, if_pos ((isUpperByte_iff c).1 h), h1]
  · rw [if_neg h, if_neg (fun hh => h ((isUpperByte_iff c).2 hh))]

theorem map_lowerByte_of_no_upper (s : GoString) (h : s.any isUpperByte = false) :
    s.map lowerByte = s := by
  induction s with
  | nil => rfl
  | cons c cs ih =>
    simp only [List.any_cons, Bool.or_eq_false_iff] at h
    simp only [List.map_cons, ih h.2, lowerByte, h.1]
    simp

/-- On a string of ASCII bytes `strings.ToLower` lower-cases byte by byte. -/
theorem ToLower_ascii (mapLower : GoString → GoString) (z : GoString)
    (h : isASCII z = true) : ToLower mapLower z = z.map lowerByte := by
  unfold ToLower
  rw [if_pos h]
  by_cases hu : z.any isUpperByte = true
  · simp [hu]
  · have hu2 : z.any isUpperByte = false := by simpa using hu
    rw [map_lowerByte_of_no_upper z hu2]
    simp [hu2]

theorem map_lowerByte_eq_asciiFold (z : GoString) : z.map lowerByte = asciiFold z := by
  have h1 : 'A'.toNat = 65 := rfl
  have h2 : 'Z'.toNat = 90 := rfl
  unfold asciiFold
  apply List.map_congr_left
  intro c _
  rw [lowerByte_eq, h1, h2]

theorem Replace_of_clean (s : GoString) (h : ∀ b ∈ s, replacer.lookup b = none) :
    replacer.Replace s = s := by
  rw [Replace_eq_specPass, specPass_of_clean s h]

theorem isASCII_map_lowerByte (z : GoString) (h : isASCII z = true) :
    isASCII (z.map lowerByte) = true := by
  induction z with
  | nil => rfl
  | cons c cs ih =>
    simp only [isASCII, List.all_cons, Bool.and_eq_true, decide_eq_true_eq, List.map_cons] at h ⊢
    refine ⟨?_, ih h.2⟩
    rw [lowerByte_eq]
    split <;> omega

theorem lowerByte_not_upper (c : Nat) : isUpperByte (lowerByte c) = false := by
  have h : ¬ (isUpperByte (lowerByte c) = true) := by
    rw [isUpperByte_iff, lowerByte_eq]
    split <;> omega
  simpa using h

theorem lowerByte_clean (c : Nat) (h : replacer.lookup c = none) :
    replacer.lookup (lowerByte c) = none := by
  rw [lookup_replacer_eq_none] at h ⊢
  rw [lowerByte_eq]
  split <;> omega

/-- The shape of every normalised key: none of the four replaced bytes, no ASCII upper-case
letter, and a fixed point of the Unicode lower-casing when it is not all ASCII. -/
theorem normalize_shape (mapLower : GoString → GoString) (s : GoString)
    (h : CaseTableLaws mapLower ∨ isASCII s = true) :
    (∀ b ∈ normalize mapLower s, replacer.lookup b = none) ∧
    (∀ b ∈ normalize mapLower s, isUpperByte b = false) ∧
    (isASCII (normalize mapLower s) = false →
      mapLower (normalize mapLower s) = normalize mapLower s) := by
  unfold normalize
  rw [Replace_eq_specPass]
  by_cases hz : isASCII (specPass s) = true
  · rw [ToLower_ascii mapLower _ hz]
    refine ⟨?_, ?_, ?_⟩
    · intro b hb
      obtain ⟨c, hc, rfl⟩ := List.mem_map.1 hb
      exact lowerByte_clean c (specPass_clean s c hc)
    · intro b hb
      obtain ⟨c, _, rfl⟩ := List.mem_map.1 hb
      exact lowerByte_not_upper c
    · intro hn
      rw [isASCII_map_lowerByte _ hz] at hn
      cases hn
  · have hz2 : isASCII (specPass s) = false := by simpa using hz
    have laws : CaseTableLaws mapLower := by
      rcases h with h | h
      · exact h
      · exact absurd (specPass_isASCII s h) hz
    have hT : ToLower mapLower (specPass s) = mapLower (specPass s) := by
      unfold ToLower
      rw [if_neg hz]
    rw [hT]
    obtain ⟨l1, l2, l3⟩ := laws (specPass s) hz2
    refine ⟨?_, l2, l3⟩
    intro b hb
    by_contra hne
    exact hne (specPass_clean s b (l1 b hb hne))

theorem ToLower_fixed (mapLower : GoString → GoString) (y : GoString)
    (hup : ∀ b ∈ y, isUpperByte b = false) (hfix : isASCII y = false → mapLower y = y) :
    ToLower mapLower y = y := by
  unfold ToLower
  by_cases hy : isASCII y = true
  · rw [if_pos hy]
    have hu : y.any isUpperByte = false := by
      rw [List.any_eq_false]
      intro b hb
      simp [hup b hb]
    simp [hu]
  · rw [if_neg hy]
    exact hfix (by simpa using hy)

theorem latin1Loop_mem (z : GoString) :
    ∀ (f : Bool) (b : Nat), b ∈ latin1Loop z f →
      b ∈ z ∨ (97 ≤ b ∧ b ≤ 122) ∨ (0xA0 ≤ b ∧ b ≤ 0xBE) := by
  induction z with
  | nil => intro f b hb; simp [latin1Loop] at hb
  | cons c cs ih =>
    intro f b hb
    unfold latin1Loop at hb
    split at hb
    · rename_i hc
      rcases List.mem_cons.1 hb with hb | hb
      · right; right; omega
      · rcases ih _ b hb with h | h
        · left; exact List.mem_cons_of_mem c h
        · right; exact h
    · rcases List.mem_cons.1 hb with hb | hb
      · rw [lowerByte_eq] at hb
        split at hb
        · right; left; omega
        · left; rw [hb]; exact List.mem_cons_self c cs
      · rcases ih _ b hb with h | h
        · left; exact List.mem_cons_of_mem c h
        · right; exact h

theorem latin1Loop_not_upper (z : GoString) :
    ∀ (f : Bool) (b : Nat), b ∈ latin1Loop z f → isUpperByte b = false := by
  induction z with
  | nil => intro f b hb; simp [latin1Loop] at hb
  | cons c cs ih =>
    intro f b hb
    unfold latin1Loop at hb
    split at hb
    · rename_i hc
      rcases List.mem_cons.1 hb with hb | hb
      · have h : ¬ (isUpperByte b = true) := by rw [isUpperByte_iff]; omega
        simpa using h
      · exact ih _ b hb
    · rcases List.mem_cons.1 hb with hb | hb
      · rw [hb]; exact lowerByte_not_upper c
      · exact ih _ b hb

theorem latin1Loop_idem (z : GoString) :
    ∀ f : Bool, latin1Loop (latin1Loop z f) f = latin1Loop z f := by
  induction z with
  | nil => intro f; simp [latin1Loop]
  | cons c cs ih =>
    intro f
    by_cases hc : f = true ∧ 0x80 ≤ c ∧ c ≤ 0x9E ∧ c ≠ 0x97
    · have e1 : latin1Loop (c :: cs) f = (c + 0x20) :: latin1Loop cs false := by
        rw [latin1Loop, if_pos hc]
      have hc2 : ¬ (f = true ∧ 0x80 ≤ c + 0x20 ∧ c + 0x20 ≤ 0x9E ∧ c + 0x20 ≠ 0x97) := by omega
      have e2 : lowerByte (c + 0x20) = c + 0x20 := by
        rw [lowerByte_eq]; split <;> omega
      have e3 : decide (c + 0x20 = 0xC3) = false := by
        have : ¬ (c + 0x20 = 0xC3) := by omega
        simpa using this
      rw [e1, latin1Loop, if_neg hc2, e2, e3, ih false]
    · have e1 : latin1Loop (c :: cs) f = lowerByte c :: latin1Loop cs (decide (c = 0xC3)) := by
        rw [latin1Loop, if_neg hc]
      have hc2 : ¬ (f = true ∧ 0x80 ≤ lowerByte c ∧ lowerByte c ≤ 0x9E ∧ lowerByte c ≠ 0x97) := by
        rintro ⟨hf, hrest⟩
        have hc3 : ¬ (0x80 ≤ c ∧ c ≤ 0x9E ∧ c ≠ 0x97) := fun hh => hc ⟨hf, hh⟩
        rw [lowerByte_eq] at hrest
        split at hrest <;> omega
      have e2 : lowerByte (lowerByte c) = lowerByte c := by
        rw [lowerByte_eq (lowerByte c), lowerByte_eq]
        repeat' split
        all_goals omega
      have e3 : decide (lowerByte c = 0xC3) = decide (c = 0xC3) := by
        have : lowerByte c = 0xC3 ↔ c = 0xC3 := by
          rw [lowerByte_eq]; split <;> omega
        simp [this]
      rw [e1, latin1Loop, if_neg hc2, e2, e3, ih]

/-- The lower-casing cut down to the rows below U+0100 has the three properties relied on. -/
theorem latin1Lower_laws : CaseTableLaws latin1Lower := by
  intro z _
  refine ⟨?_, ?_, ?_⟩
  · intro b hb hne
    rcases latin1Loop_mem z false b hb with h | h | h
    · exact h
    · exact absurd ((lookup_replacer_eq_none b).2 (by omega)) hne
    · exact absurd ((lookup_replacer_eq_none b).2 (by omega)) hne
  · exact latin1Loop_not_upper z false
  · intro _
    exact latin1Loop_idem z false

/-- C7 (counterexample): `Ä` (U+00C4, UTF-8 `C3 84`) is normalised to `ä` (`C3 A4`), while
the pass followed by ASCII case folding leaves it as it is. -/
theorem normalize_lowers_beyond_ASCII :
    normalize latin1Lower [0xC3, 0x84] = [0xC3, 0xA4]
      ∧ normalizeSpec [0xC3, 0x84] = [0xC3, 0x84] := by
  decide

/-- C7 (amended): for every string of ASCII bytes, `normalize` is the single pass of the
spec (`/` deleted, space, `*`, `:` replaced by `_`) followed by ASCII case folding. -/
theorem normalize_eq_normalizeSpec (mapLower : GoString → GoString) (s : GoString)
    (h : isASCII s = true) : normalize mapLower s = normalizeSpec s := by
  unfold normalize normalizeSpec
  rw [Replace_eq_specPass, ToLower_ascii mapLower _ (specPass_isASCII s h),
    map_lowerByte_eq_asciiFold]

/-- C7 (witness): the four examples of the claim. -/
theorem normalize_eq_normalizeSpec_witness :
    normalize latin1Lower (ascii "foo") = ascii "foo"
      ∧ normalize latin1Lower (ascii "f:o") = ascii "f_o"
      ∧ normalize latin1Lower (ascii "f/o") = ascii "fo"
      ∧ normalize latin1Lower (ascii "FOO") = ascii "foo" :=
  ⟨(normalize_eq_normalizeSpec latin1Lower (ascii "foo") (by decide)).trans (by decide),
   (normalize_eq_normalizeSpec latin1Lower (ascii "f:o") (by decide)).trans (by decide),
   (normalize_eq_normalizeSpec latin1Lower (ascii "f/o") (by decide)).trans (by decide),
   (normalize_eq_normalizeSpec latin1Lower (ascii "FOO") (by decide)).trans (by decide)⟩

/-- C8 (counterexample): `normalize("a-b")` is `a-b`, and `-` is outside the canonical
alphabet. -/
theorem normalize_keeps_other_punctuation :
    normalize latin1Lower (ascii "a-b") = ascii "a-b"
      ∧ ¬ ∀ c ∈ normalize latin1Lower (ascii "a-b"), canonicalByte c = true := by
  decide

/-- C8 (amended): no byte of `normalize(s)` is `/`, space, `*`, `:` or an ASCII upper-case
letter, for every ASCII string `s` and, given the three properties of the Unicode
lower-casing, for every string `s`. -/
theorem normalize_bytes (mapLower : GoString → GoString) (s : GoString)
    (h : CaseTableLaws mapLower ∨ isASCII s = true) :
    ∀ c ∈ normalize mapLower s,
      c ≠ '/'.toNat ∧ c ≠ ' '.toNat ∧ c ≠ '*'.toNat ∧ c ≠ ':'.toNat ∧ isUpperByte c = false := by
  intro c hc
  obtain ⟨h1, h2, _⟩ := normalize_shape mapLower s h
  have hl := (lookup_replacer_eq_none c).1 (h1 c hc)
  exact ⟨hl.1, hl.2.1, hl.2.2.1, hl.2.2.2, h2 c hc⟩

/-- C8 (witness): the text `Ärger/A B*c:D`, which is not all ASCII. -/
theorem normalize_bytes_witness :
    (CaseTableLaws latin1Lower ∨ isASCII (0xC3 :: 0x84 :: ascii "rger/A B*c:D") = true)
      ∧ normalize latin1Lower (0xC3 :: 0x84 :: ascii "rger/A B*c:D")
          = 0xC3 :: 0xA4 :: ascii "rgera_b_c_d"
      ∧ ∀ c ∈ normalize latin1Lower (0xC3 :: 0x84 :: ascii "rger/A B*c:D"),
          c ≠ '/'.toNat ∧ c ≠ ' '.toNat ∧ c ≠ '*'.toNat ∧ c ≠ ':'.toNat
            ∧ isUpperByte c = false :=
  ⟨Or.inl latin1Lower_laws, by decide,
    normalize_bytes latin1Lower (0xC3 :: 0x84 :: ascii "rger/A B*c:D")
      (Or.inl latin1Lower_laws)⟩

/-- C9: `normalize(normalize(x)) = normalize(x)`, for every ASCII string `x` and, given the
three properties of the Unicode lower-casing, for every string `x`. -/
theorem normalize_idempotent (mapLower : GoString → GoString) (x : GoString)
    (h : CaseTableLaws mapLower ∨ isASCII x = true) :
    normalize mapLower (normalize mapLower x) = normalize mapLower x := by
  obtain ⟨h1, h2, h3⟩ := normalize_shape mapLower x h
  have e : normalize mapLower (normalize mapLower x)
      = ToLower mapLower (replacer.Replace (normalize mapLower x)) := rfl
  rw [e, Replace_of_clean _ h1, ToLower_fixed mapLower _ h2 h3]

/-- C9 (witness): an ASCII text with every kind of replaced character. -/
theorem normalize_idempotent_witness :
    (CaseTableLaws latin1Lower ∨ isASCII (ascii "SQL*Net message: to/from client") = true)
      ∧ normalize latin1Lower (ascii "SQL*Net message: to/from client")
          = ascii "sql_net_message__tofrom_client"
      ∧ normalize latin1Lower (normalize latin1Lower (ascii "SQL*Net message: to/from client"))
          = normalize latin1Lower (ascii "SQL*Net message: to/from client") :=
  ⟨Or.inr (by decide), by decide,
    normalize_idempotent latin1Lower (ascii "SQL*Net message: to/from client")
      (Or.inr (by decide))⟩

/-! ## Rendering the selectors -/

theorem SetAll_names {ρ ε : Type} (re : RegexpPkg ρ ε) (vs : List GoString) :
    ∀ we : waitEventNames ρ, (∀ e ∈ (waitEventNames.SetAll re we vs).2, e = none) →
      ∃ added : waitEventNames ρ, (waitEventNames.SetAll re we vs).1 = we ++ added ∧
        added.map waitEventName.Name = vs := by
  induction vs with
  | nil => intro we _; exact ⟨[], by simp [waitEventNames.SetAll]⟩
  | cons v vs ih =>
    intro we h
    simp only [waitEventNames.SetAll, List.mem_cons, forall_eq_or_imp] at h ⊢
    obtain ⟨w, hw, hn⟩ := Set_ok re we v h.1
    obtain ⟨added, ha, hm⟩ := ih _ h.2
    refine ⟨w :: added, ?_, by simp [hn, hm]⟩
    rw [ha, hw]
    simp

theorem StringLoop_succ {ρ : Type} (printTable : Nat → Bool) (ws : waitEventNames ρ) :
    ∀ (i : Nat) (buf : GoString), StringLoop printTable ws (i + 1) buf =
      buf ++ ws.flatMap (fun w => ascii "," ++ Quote printTable w.Name) := by
  induction ws with
  | nil => intro i buf; simp [StringLoop]
  | cons w ws ih =>
    intro i buf
    simp only [StringLoop, ih, List.flatMap_cons]
    simp

theorem String_cons {ρ : Type} (printTable : Nat → Bool) (w : waitEventName ρ)
    (ws : waitEventNames ρ) :
    waitEventNames.String printTable (w :: ws) =
      Quote printTable w.Name ++ ws.flatMap (fun w => ascii "," ++ Quote printTable w.Name) := by
  simp only [waitEventNames.String, StringLoop]
  rw [StringLoop_succ]
  simp

theorem intercalate_cons {α : Type} (sep x : List α) (xs : List (List α)) :
    sep.intercalate (x :: xs) = x ++ xs.flatMap (fun y => sep ++ y) := by
  induction xs generalizing x with
  | nil => simp [List.intercalate, List.intersperse]
  | cons y ys ih =>
    have h := ih y
    simp only [List.intercalate, List.intersperse, List.flatten_cons, List.flatMap_cons] at h ⊢
    rw [h, List.append_assoc]

/-- The selectors are rendered as their quoted names joined by commas. -/
theorem String_eq_intercalate {ρ : Type} (printTable : Nat → Bool) (we : waitEventNames ρ) :
    waitEventNames.String printTable we =
      (ascii ",").intercalate (we.map (fun w => Quote printTable w.Name)) := by
  cases we with
  | nil => rfl
  | cons w ws =>
    rw [String_cons, List.map_cons, intercalate_cons]
    congr 1
    induction ws with
    | nil => rfl
    | cons w2 ws ih => simp [List.flatMap_cons, ih]

theorem quotesEscaped_plain_append (ch rest : GoString) (h : ∀ c ∈ ch, c ≠ 92 ∧ c ≠ 34) :
    quotesEscaped (ch ++ rest) false = quotesEscaped rest false := by
  have h1 : '\\'.toNat = 92 := rfl
  have h2 : '"'.toNat = 34 := rfl
  induction ch with
  | nil => rfl
  | cons c cs ih =>
    have hc := h c (List.mem_cons_self c cs)
    simp only [List.cons_append, quotesEscaped, h1, h2, hc.1, hc.2, if_false]
    exact ih (fun d hd => h d (List.mem_cons_of_mem c hd))

theorem quotesEscaped_pair (c : Nat) (ch rest : GoString) (h : ∀ c ∈ ch, c ≠ 92 ∧ c ≠ 34) :
    quotesEscaped (92 :: c :: ch ++ rest) false = quotesEscaped rest false := by
  have h1 : '\\'.toNat = 92 := rfl
  simp only [List.cons_append, quotesEscaped, h1, if_true]
  exact quotesEscaped_plain_append ch rest h

theorem lowerhex_plain (n : Nat) : lowerhex (n % 16) ≠ 92 ∧ lowerhex (n % 16) ≠ 34 := by
  have hm : n % 16 < 16 := Nat.mod_lt n (by decide)
  generalize n % 16 = m at hm
  interval_cases m <;> decide

theorem AppendRune_plain (r : Nat) (h92 : r ≠ 92) (h34 : r ≠ 34) :
    ∀ c ∈ AppendRune r, c ≠ 92 ∧ c ≠ 34 := by
  intro c hc
  unfold AppendRune at hc
  repeat' split at hc
  all_goals simp only [List.mem_cons, List.mem_singleton, List.not_mem_nil, or_false] at hc
  all_goals omega

theorem appendEscapedRune_escaped (printTable : Nat → Bool) (r : Nat) (rest : GoString) :
    quotesEscaped (appendEscapedRune printTable r ++ rest) false = quotesEscaped rest false := by
  have h1 : '\\'.toNat = 92 := rfl
  have h2 : '"'.toNat = 34 := rfl
  have ea : ascii "\\a" = [92, 97] := rfl
  have eb : ascii "\\b" = [92, 98] := rfl
  have ef : ascii "\\f" = [92, 102] := rfl
  have en : ascii "\\n" = [92, 110] := rfl
  have er : ascii "\\r" = [92, 114] := rfl
  have et : ascii "\\t" = [92, 116] := rfl
  have ev : ascii "\\v" = [92, 118] := rfl
  have ex : ascii "\\x" = [92, 120] := rfl
  have eu : ascii "\\u" = [92, 117] := rfl
  have eU : ascii "\\U" = [92, 85] := rfl
  have ed : ascii "\\ufffd" = [92, 117, 102, 102, 102, 100] := rfl
  have nil_plain : ∀ c ∈ ([] : GoString), c ≠ 92 ∧ c ≠ 34 := fun c hc => by cases hc
  unfold appendEscapedRune
  rw [h1, h2, ea, eb, ef, en, er, et, ev, ex, eu, eU, ed]
  by_cases hq : r = 34 ∨ r = 92
  · rw [if_pos hq]
    exact quotesEscaped_pair r [] rest nil_plain
  rw [if_neg hq]
  by_cases hp : IsPrint printTable r = true
  · rw [if_pos hp]
    exact quotesEscaped_plain_append _ rest
      (AppendRune_plain r (fun e => hq (Or.inr e)) (fun e => hq (Or.inl e)))
  rw [if_neg hp]
  by_cases c7 : r = 7
  · rw [if_pos c7]; exact quotesEscaped_pair 97 [] rest nil_plain
  rw [if_neg c7]
  by_cases c8 : r = 8
  · rw [if_pos c8]; exact quotesEscaped_pair 98 [] rest nil_plain
  rw [if_neg c8]
  by_cases c12 : r = 12
  · rw [if_pos c12]; exact quotesEscaped_pair 102 [] rest nil_plain
  rw [if_neg c12]
  by_cases c10 : r = 10
  · rw [if_pos c10]; exact quotesEscaped_pair 110 [] rest nil_plain
  rw [if_neg c10]
  by_cases c13 : r = 13
  · rw [if_pos c13]; exact quotesEscaped_pair 114 [] rest nil_plain
  rw [if_neg c13]
  by_cases c9 : r = 9
  · rw [if_pos c9]; exact quotesEscaped_pair 116 [] rest nil_plain
  rw [if_neg c9]
  by_cases c11 : r = 11
  · rw [if_pos c11]; exact quotesEscaped_pair 118 [] rest nil_plain
  rw [if_neg c11]
  by_cases cx : r < ' '.toNat ∨ r = 0x7F
  · rw [if_pos cx]
    refine quotesEscaped_pair 120 [lowerhex (r / 16 % 16), lowerhex (r % 16)] rest ?_
    intro c hc
    simp only [List.mem_cons, List.mem_singleton, List.not_mem_nil, or_false] at hc
    rcases hc with hc | hc <;> rw [hc] <;> exact lowerhex_plain _
  rw [if_neg cx]
  by_cases cv : r > 0x10FFFF ∨ (0xD800 ≤ r ∧ r ≤ 0xDFFF)
  · rw [if_pos cv]
    refine quotesEscaped_pair 117 [102, 102, 102, 100] rest ?_
    intro c hc
    simp only [List.mem_cons, List.mem_singleton, List.not_mem_nil, or_false] at hc
    omega
  rw [if_neg cv]
  by_cases cu : r < 0x10000
  · rw [if_pos cu]
    refine quotesEscaped_pair 117 [lowerhex (r / 4096 % 16), lowerhex (r / 256 % 16),
      lowerhex (r / 16 % 16), lowerhex (r % 16)] rest ?_
    intro c hc
    simp only [List.mem_cons, List.mem_singleton, List.not_mem_nil, or_false] at hc
    rcases hc with hc | hc | hc | hc <;> rw [hc] <;> exact lowerhex_plain _
  rw [if_neg cu]
  refine quotesEscaped_pair 85 [lowerhex (r / 268435456 % 16), lowerhex (r / 16777216 % 16),
      lowerhex (r / 1048576 % 16), lowerhex (r / 65536 % 16), lowerhex (r / 4096 % 16),
      lowerhex (r / 256 % 16), lowerhex (r / 16 % 16), lowerhex (r % 16)] rest ?_
  intro c hc
  simp only [List.mem_cons, List.mem_singleton, List.not_mem_nil, or_false] at hc
  rcases hc with hc | hc | hc | hc | hc | hc | hc | hc <;> rw [hc] <;>
    exact lowerhex_plain _

theorem quoteLoop_zero (printTable : Nat → Bool) (b : Nat) (rest : GoString) :
    ∃ (chunk : GoString) (k : Nat),
      quoteLoop printTable (b :: rest) 0 = chunk ++ quoteLoop printTable rest k ∧
      ∀ tail : GoString, quotesEscaped (chunk ++ tail) false = quotesEscaped tail false := by
  have ex : ascii "\\x" = [92, 120] := rfl
  simp only [quoteLoop]
  generalize (if b < 0x80 then (b, 1) else DecodeRuneInString (b :: rest)) = d
  by_cases hd : d.2 = 1 ∧ d.1 = RuneError
  · rw [if_pos hd, ex]
    refine ⟨_, _, rfl, fun tail => ?_⟩
    refine quotesEscaped_pair 120 [lowerhex (b / 16 % 16), lowerhex (b % 16)] tail ?_
    intro c hc
    simp only [List.mem_cons, List.mem_singleton, List.not_mem_nil, or_false] at hc
    rcases hc with hc | hc <;> rw [hc] <;> exact lowerhex_plain _
  · rw [if_neg hd]
    exact ⟨_, _, rfl, fun tail => appendEscapedRune_escaped printTable d.1 tail⟩

theorem quoteLoop_escaped (printTable : Nat → Bool) (s : GoString) :
    ∀ skip : Nat, quotesEscaped (quoteLoop printTable s skip) false = true := by
  induction s with
  | nil => intro skip; rfl
  | cons b rest ih =>
    intro skip
    cases skip with
    | succ k => exact ih k
    | zero =>
      obtain ⟨chunk, k, he, hq⟩ := quoteLoop_zero printTable b rest
      rw [he, hq]
      exact ih k

/-- Between its two double quotes, what `Quote` writes has no bare double quote. -/
theorem Quote_escaped (printTable : Nat → Bool) (s : GoString) :
    ∃ body : GoString, Quote printTable s = '"'.toNat :: body ++ ['"'.toNat] ∧
      quotesEscaped body false = true :=
  ⟨quoteLoop printTable s 0, rfl, quoteLoop_escaped printTable s 0⟩

/-- On printable ASCII text without a backslash, `Quote` is the quoting of the spec. -/
theorem Quote_eq_quoteSpec (printTable : Nat → Bool) (s : GoString)
    (h : ∀ c ∈ s, 0x20 ≤ c ∧ c ≤ 0x7E ∧ c ≠ '\\'.toNat) :
    Quote printTable s = quoteSpec s := by
  have h1 : '\\'.toNat = 92 := rfl
  have h2 : '"'.toNat = 34 := rfl
  unfold Quote quoteSpec
  congr 2
  induction s with
  | nil => rfl
  | cons c cs ih =>
    obtain ⟨ha, hb, hc⟩ := h c (List.mem_cons_self c cs)
    rw [h1] at hc
    have hlt : c < 0x80 := by omega
    have hre : ¬ ((1 : Nat) = 1 ∧ c = RuneError) := by
      unfold RuneError; omega
    have hpr : IsPrint printTable c = true := by
      unfold IsPrint
      rw [if_pos (by omega), if_pos ⟨ha, hb⟩]
    have hap : AppendRune c = [c] := by
      unfold AppendRune
      rw [if_pos (by omega)]
    have hesc : appendEscapedRune printTable c = if c = 34 then [92, c] else [c] := by
      unfold appendEscapedRune
      rw [h1, h2]
      by_cases hq : c = 34
      · rw [if_pos (Or.inl hq), if_pos hq]
      · rw [if_neg (by omega), if_pos hpr, hap, if_neg hq]
    have step : quoteLoop printTable (c :: cs) 0
        = appendEscapedRune printTable c ++ quoteLoop printTable cs 0 := by
      simp only [quoteLoop]
      rw [if_pos hlt, if_neg hre]
      rfl
    rw [step, hesc, ih (fun d hd => h d (List.mem_cons_of_mem c hd)), List.flatMap_cons, h1, h2]

/-- C10: for a list built by successful `Set` calls with the values `vs`, `String()` is
the values themselves, in the order of the calls, each as `%q` writes it, joined by `,`;
what `%q` writes is a double quote, a text in which every double quote is escaped by a
backslash, and a double quote, and for printable ASCII text without a backslash it is
exactly the text with a backslash before each double quote; the empty list gives the empty
string. -/
theorem String_renders_names {ρ ε : Type} (re : RegexpPkg ρ ε) (printTable : Nat → Bool)
    (vs : List GoString) (h : ∀ e ∈ (waitEventNames.SetAll re [] vs).2, e = none) :
    waitEventNames.String printTable (waitEventNames.SetAll re [] vs).1
        = (ascii ",").intercalate (vs.map (Quote printTable))
      ∧ (∀ v ∈ vs, ∃ body : GoString,
          Quote printTable v = '"'.toNat :: body ++ ['"'.toNat] ∧
            quotesEscaped body false = true)
      ∧ (∀ v ∈ vs, (∀ c ∈ v, 0x20 ≤ c ∧ c ≤ 0x7E ∧ c ≠ '\\'.toNat) →
          Quote printTable v = quoteSpec v)
      ∧ waitEventNames.String printTable ([] : waitEventNames ρ) = [] := by
  obtain ⟨added, ha, hm⟩ := SetAll_names re vs [] h
  refine ⟨?_, fun v _ => Quote_escaped printTable v,
    fun v _ hv => Quote_eq_quoteSpec printTable v hv, rfl⟩
  rw [ha, List.nil_append, String_eq_intercalate, ← hm, List.map_map]
  rfl

/-- C10 (witness): the three selectors of `TestWaitEventNameString` and the string the test
expects. -/
theorem String_renders_names_witness :
    (∀ e ∈ (waitEventNames.SetAll fragment []
        [ascii "foo", ascii "bar", ascii "\"baz\""]).2, e = none)
      ∧ waitEventNames.String (fun _ => false)
          (waitEventNames.SetAll fragment [] [ascii "foo", ascii "bar", ascii "\"baz\""]).1
        = ascii "\"foo\",\"bar\",\"\\\"baz\\\"\"" :=
  ⟨by decide,
    (String_renders_names fragment (fun _ => false)
      [ascii "foo", ascii "bar", ascii "\"baz\""] (by decide)).1.trans (by decide)⟩

/-! ## Go maps and `mergeStat` -/

theorem GoMap.get_cons {V : Type} (k1 : GoString) (v1 : V) (rest : GoMap V) (k : GoString) :
    GoMap.get ((k1, v1) :: rest) k = if k = k1 then some v1 else GoMap.get rest k := by
  unfold GoMap.get
  rw [List.lookup_cons]
  by_cases h : k = k1
  · simp [h]
  · have hb : (k == k1) = false := by simpa using h
    simp [hb, h]

theorem GoMap.get_set {V : Type} (m : GoMap V) (k : GoString) (v : V) (k2 : GoString) :
    GoMap.get (GoMap.set m k v) k2 = if k2 = k then some v else GoMap.get m k2 := by
  induction m with
  | nil => rw [GoMap.set, GoMap.get_cons]
  | cons kv rest ih =>
    obtain ⟨k1, v1⟩ := kv
    rw [GoMap.set]
    by_cases h1 : k1 = k
    · rw [if_pos h1, GoMap.get_cons, GoMap.get_cons, h1]
      by_cases h2 : k2 = k <;> simp [h2]
    · rw [if_neg h1, GoMap.get_cons, GoMap.get_cons, ih]
      by_cases h3 : k2 = k1
      · have h4 : ¬ k2 = k := fun e => h1 (h3.symm.trans e)
        rw [if_pos h3, if_neg h4, if_pos h3]
      · simp [h3]

theorem GoMap.keys_set {V : Type} (m : GoMap V) (k : GoString) (v : V) :
    GoMap.keys (GoMap.set m k v) = if k ∈ GoMap.keys m then GoMap.keys m else GoMap.keys m ++ [k] := by
  induction m with
  | nil => simp [GoMap.set, GoMap.keys]
  | cons kv rest ih =>
    obtain ⟨k1, v1⟩ := kv
    rw [GoMap.set]
    by_cases h1 : k1 = k
    · subst h1
      simp [GoMap.keys]
    · have ih2 : List.map Prod.fst (GoMap.set rest k v)
          = if k ∈ List.map Prod.fst rest then List.map Prod.fst rest
            else List.map Prod.fst rest ++ [k] := ih
      have h2 : ¬ k = k1 := fun e => h1 e.symm
      rw [if_neg h1]
      simp only [GoMap.keys, List.map_cons, List.mem_cons, h2, false_or, ih2]
      split <;> simp

theorem GoMap.mem_keys_set {V : Type} (m : GoMap V) (k : GoString) (v : V) (k2 : GoString) :
    k2 ∈ GoMap.keys (GoMap.set m k v) ↔ k2 = k ∨ k2 ∈ GoMap.keys m := by
  rw [GoMap.keys_set]
  split
  · rename_i h
    constructor
    · intro h2; exact Or.inr h2
    · rintro (h2 | h2)
      · rw [h2]; exact h
      · exact h2
  · simp only [List.mem_append, List.mem_singleton]
    exact Or.comm

theorem GoMap.nodup_keys_set {V : Type} (m : GoMap V) (k : GoString) (v : V)
    (h : (GoMap.keys m).Nodup) : (GoMap.keys (GoMap.set m k v)).Nodup := by
  rw [GoMap.keys_set]
  split
  · exact h
  · rename_i hk
    rw [List.nodup_append]
    refine ⟨h, List.nodup_singleton k, ?_⟩
    intro a ha hb
    rw [List.mem_singleton] at hb
    exact hk (hb ▸ ha)

theorem GoMap.get_eq_none_iff {V : Type} (m : GoMap V) (k : GoString) :
    GoMap.get m k = none ↔ k ∉ GoMap.keys m := by
  induction m with
  | nil => simp [GoMap.get, GoMap.keys]
  | cons kv rest ih =>
    obtain ⟨k1, v1⟩ := kv
    rw [GoMap.get_cons]
    have hk : GoMap.keys ((k1, v1) :: rest) = k1 :: GoMap.keys rest := rfl
    rw [hk, List.mem_cons]
    by_cases h : k = k1
    · simp [h]
    · simp [h, ih]

theorem GoMap.get_eq_some_iff {V : Type} (m : GoMap V) (h : (GoMap.keys m).Nodup)
    (k : GoString) (v : V) : GoMap.get m k = some v ↔ (k, v) ∈ m := by
  induction m with
  | nil => simp [GoMap.get]
  | cons kv rest ih =>
    obtain ⟨k1, v1⟩ := kv
    have hk : GoMap.keys ((k1, v1) :: rest) = k1 :: GoMap.keys rest := rfl
    rw [hk, List.nodup_cons] at h
    rw [GoMap.get_cons, List.mem_cons]
    by_cases h1 : k = k1
    · subst h1
      have hn : (k, v) ∉ rest := by
        intro hm
        exact h.1 (List.mem_map.2 ⟨(k, v), hm, rfl⟩)
      simp only [if_true, Option.some.injEq, Prod.mk.injEq, true_and, hn, or_false]
      exact eq_comm
    · rw [if_neg h1, ih h.2]
      simp [h1]

theorem GoMap.get_perm {V : Type} (m1 m2 : GoMap V) (hp : m1.Perm m2)
    (h : (GoMap.keys m2).Nodup) (k : GoString) : GoMap.get m1 k = GoMap.get m2 k := by
  have h1 : (GoMap.keys m1).Nodup := (List.Perm.nodup_iff (hp.map Prod.fst)).2 h
  cases hv : GoMap.get m2 k with
  | none =>
    rw [GoMap.get_eq_none_iff] at hv ⊢
    intro hm
    exact hv ((hp.map Prod.fst).mem_iff.1 hm)
  | some v =>
    rw [GoMap.get_eq_some_iff m2 h] at hv
    rw [GoMap.get_eq_some_iff m1 h1]
    exact hp.mem_iff.2 hv

theorem mergeStat_cons {V : Type} (dst : GoMap V) (kv : GoString × V) (src : GoMap V) :
    mergeStat dst (kv :: src) = mergeStat (GoMap.set dst kv.1 kv.2) src := rfl

/-- After `mergeStat(dst, src)` a key is bound to its value in `src` when it is a key of
`src`, and keeps its binding in `dst` otherwise. -/
theorem mergeStat_get {V : Type} (src : GoMap V) (h : (GoMap.keys src).Nodup) :
    ∀ (dst : GoMap V) (k : GoString),
      GoMap.get (mergeStat dst src) k = (GoMap.get src k).or (GoMap.get dst k) := by
  induction src with
  | nil => intro dst k; rfl
  | cons kv rest ih =>
    obtain ⟨k1, v1⟩ := kv
    have hk : GoMap.keys ((k1, v1) :: rest) = k1 :: GoMap.keys rest := rfl
    rw [hk, List.nodup_cons] at h
    intro dst k
    rw [mergeStat_cons, ih h.2, GoMap.get_set, GoMap.get_cons]
    by_cases h1 : k = k1
    · subst h1
      have hn : GoMap.get rest k = none := (GoMap.get_eq_none_iff rest k).2 h.1
      simp [hn]
    · simp [h1]

theorem mergeStat_keys {V : Type} (src : GoMap V) :
    ∀ (dst : GoMap V) (k : GoString),
      k ∈ GoMap.keys (mergeStat dst src) ↔ k ∈ GoMap.keys dst ∨ k ∈ GoMap.keys src := by
  induction src with
  | nil => intro dst k; simp [mergeStat, GoMap.keys]
  | cons kv rest ih =>
    obtain ⟨k1, v1⟩ := kv
    intro dst k
    have hk : GoMap.keys ((k1, v1) :: rest) = k1 :: GoMap.keys rest := rfl
    rw [mergeStat_cons, ih, GoMap.mem_keys_set, hk, List.mem_cons]
    constructor
    · rintro ((h | h) | h)
      · exact Or.inr (Or.inl h)
      · exact Or.inl h
      · exact Or.inr (Or.inr h)
    · rintro (h | h | h)
      · exact Or.inl (Or.inr h)
      · exact Or.inl (Or.inl h)
      · exact Or.inr h

theorem mergeStat_nodup {V : Type} (src : GoMap V) :
    ∀ dst : GoMap V, (GoMap.keys dst).Nodup → (GoMap.keys (mergeStat dst src)).Nodup := by
  induction src with
  | nil => intro dst h; exact h
  | cons kv rest ih =>
    intro dst h
    rw [mergeStat_cons]
    exact ih _ (GoMap.nodup_keys_set dst kv.1 kv.2 h)

/-! ## The adapters -/

/-- The scan loop of the two simple adapters ends with a map and no error, or with no map
and an error. -/
theorem scanNamed_cases {E V : Type} (mapLower : GoString → GoString)
    (rows : List (Except E (GoString × V))) :
    ∀ stat : GoMap V, (GoMap.keys stat).Nodup →
      (∃ m : GoMap V, scanNamed mapLower rows stat = (some m, none) ∧ (GoMap.keys m).Nodup) ∨
      (∃ err : E, scanNamed mapLower rows stat = (none, some err)) := by
  induction rows with
  | nil => intro stat h; exact Or.inl ⟨stat, rfl, h⟩
  | cons row rows ih =>
    intro stat h
    cases row with
    | error err => exact Or.inr ⟨err, rfl⟩
    | ok nv =>
      obtain ⟨name, value⟩ := nv
      exact ih _ (GoMap.nodup_keys_set stat _ value h)

theorem scanWaitEvents_cases {ρ ε E V : Type} (re : RegexpPkg ρ ε)
    (mapLower : GoString → GoString) (we : waitEventNames ρ)
    (rows : List (Except E (WaitEventRow V))) :
    ∀ stat : GoMap V, (GoMap.keys stat).Nodup →
      (∃ m : GoMap V, scanWaitEvents re mapLower we rows stat = (some m, none)
        ∧ (GoMap.keys m).Nodup) ∨
      (∃ err : E, scanWaitEvents re mapLower we rows stat = (none, some err)) := by
  induction rows with
  | nil => intro stat h; exact Or.inl ⟨stat, rfl, h⟩
  | cons row rows ih =>
    intro stat h
    cases row with
    | error err => exact Or.inr ⟨err, rfl⟩
    | ok row =>
      rw [scanWaitEvents]
      split
      · exact ih _ (GoMap.nodup_keys_set _ _ _ (GoMap.nodup_keys_set _ _ _ h))
      · exact ih _ h

theorem fetchResource_cases {E V : Type} (mapLower : GoString → GoString) (db : DB E V) :
    (∃ m : GoMap V, fetchResource mapLower db = ⟨some m, none, [.resourceLimit]⟩
      ∧ (GoMap.keys m).Nodup) ∨
    (∃ err : E, fetchResource mapLower db = ⟨none, some err, [.resourceLimit]⟩) := by
  unfold fetchResource
  cases hq : db.resourceLimit with
  | error err => exact Or.inr ⟨err, rfl⟩
  | ok rows =>
    rcases scanNamed_cases mapLower rows [] List.nodup_nil with ⟨m, hm, hn⟩ | ⟨err, he⟩
    · exact Or.inl ⟨m, by simp [hm], hn⟩
    · exact Or.inr ⟨err, by simp [he]⟩

theorem fetchWaitClass_cases {E V : Type} (mapLower : GoString → GoString) (db : DB E V) :
    (∃ m : GoMap V, fetchWaitClass mapLower db = ⟨some m, none, [.waitClass]⟩
      ∧ (GoMap.keys m).Nodup) ∨
    (∃ err : E, fetchWaitClass mapLower db = ⟨none, some err, [.waitClass]⟩) := by
  unfold fetchWaitClass
  cases hq : db.waitClass with
  | error err => exact Or.inr ⟨err, rfl⟩
  | ok rows =>
    rcases scanNamed_cases mapLower rows [] List.nodup_nil with ⟨m, hm, hn⟩ | ⟨err, he⟩
    · exact Or.inl ⟨m, by simp [hm], hn⟩
    · exact Or.inr ⟨err, by simp [he]⟩

theorem fetchWaitEvents_cases {ρ ε E V : Type} (re : RegexpPkg ρ ε)
    (mapLower : GoString → GoString) (we : waitEventNames ρ) (db : DB E V) :
    (∃ (m : GoMap V) (q : List Statement),
      fetchWaitEvents re mapLower we db = ⟨some m, none, q⟩ ∧ (GoMap.keys m).Nodup) ∨
    (∃ err : E, fetchWaitEvents re mapLower we db = ⟨none, some err, [.waitEvent]⟩) := by
  unfold fetchWaitEvents
  by_cases h0 : we.length = 0
  · rw [if_pos h0]
    exact Or.inl ⟨[], [], rfl, List.nodup_nil⟩
  · rw [if_neg h0]
    cases hq : db.waitEvent with
    | error err => exact Or.inr ⟨err, rfl⟩
    | ok rows =>
      rcases scanWaitEvents_cases re mapLower we rows [] List.nodup_nil with
        ⟨m, hm, hn⟩ | ⟨err, he⟩
      · exact Or.inl ⟨m, [.waitEvent], by simp [hm], hn⟩
      · exact Or.inr ⟨err, by simp [he]⟩

/-- When the three adapters succeed, `FetchMetrics` merges their maps in order. -/
theorem FetchMetrics_ok {ρ ε E V : Type} (re : RegexpPkg ρ ε) (mapLower : GoString → GoString)
    (we : waitEventNames ρ) (db : DB E V) (r c w : GoMap V) (qr qc qw : List Statement)
    (hr : fetchResource mapLower db = ⟨some r, none, qr⟩)
    (hc : fetchWaitClass mapLower db = ⟨some c, none, qc⟩)
    (hw : fetchWaitEvents re mapLower we db = ⟨some w, none, qw⟩) :
    FetchMetrics re mapLower we (.ok db)
      = ⟨some (mergeStat (mergeStat (mergeStat [] r) c) w), none, qr ++ qc ++ qw⟩ := by
  simp [FetchMetrics, hr, hc, hw]

/-- The map of a successful adapter has pairwise distinct keys. -/
theorem Fetched_nodup {ρ ε E V : Type} (re : RegexpPkg ρ ε) (mapLower : GoString → GoString)
    (we : waitEventNames ρ) (db : DB E V) (m : GoMap V) :
    ((fetchResource mapLower db).stat = some m → (GoMap.keys m).Nodup) ∧
    ((fetchWaitClass mapLower db).stat = some m → (GoMap.keys m).Nodup) ∧
    ((fetchWaitEvents re mapLower we db).stat = some m → (GoMap.keys m).Nodup) := by
  refine ⟨?_, ?_, ?_⟩
  · intro h
    rcases fetchResource_cases mapLower db with ⟨m2, h2, hn⟩ | ⟨err, h2⟩
    · rw [h2] at h; cases h; exact hn
    · rw [h2] at h; cases h
  · intro h
    rcases fetchWaitClass_cases mapLower db with ⟨m2, h2, hn⟩ | ⟨err, h2⟩
    · rw [h2] at h; cases h; exact hn
    · rw [h2] at h; cases h
  · intro h
    rcases fetchWaitEvents_cases re mapLower we db with ⟨m2, q, h2, hn⟩ | ⟨err, h2⟩
    · rw [h2] at h; cases h; exact hn
    · rw [h2] at h; cases h

/-- When the three adapters return the maps `r`, `c`, `w`, `FetchMetrics` returns the map
that binds a key as `w` does, else as `c` does, else as `r` does. -/
theorem FetchMetrics_get {ρ ε E V : Type} (re : RegexpPkg ρ ε)
    (mapLower : GoString → GoString) (we : waitEventNames ρ) (db : DB E V) (r c w : GoMap V)
    (hr : (fetchResource mapLower db).stat = some r)
    (hc : (fetchWaitClass mapLower db).stat = some c)
    (hw : (fetchWaitEvents re mapLower we db).stat = some w) :
    ∃ stat : GoMap V, (FetchMetrics re mapLower we (.ok db)).stat = some stat ∧
      (FetchMetrics re mapLower we (.ok db)).err = none ∧
      ∀ k : GoString, GoMap.get stat k
        = (GoMap.get w k).or ((GoMap.get c k).or (GoMap.get r k)) := by
  have nr := (Fetched_nodup re mapLower we db r).1 hr
  have nc := (Fetched_nodup re mapLower we db c).2.1 hc
  have nw := (Fetched_nodup re mapLower we db w).2.2 hw
  rcases fetchResource_cases mapLower db with ⟨r2, h2, _⟩ | ⟨err, h2⟩
  swap
  · rw [h2] at hr; cases hr
  rw [h2] at hr; cases hr
  rcases fetchWaitClass_cases mapLower db with ⟨c2, h3, _⟩ | ⟨err, h3⟩
  swap
  · rw [h3] at hc; cases hc
  rw [h3] at hc; cases hc
  rcases fetchWaitEvents_cases re mapLower we db with ⟨w2, q, h4, _⟩ | ⟨err, h4⟩
  swap
  · rw [h4] at hw; cases hw
  rw [h4] at hw; cases hw
  rw [FetchMetrics_ok re mapLower we db r c w _ _ _ h2 h3 h4]
  refine ⟨_, rfl, rfl, fun k => ?_⟩
  rw [mergeStat_get w nw, mergeStat_get c nc, mergeStat_get r nr]
  have h0 : GoMap.get ([] : GoMap V) k = none := rfl
  rw [h0, Option.or_none]

/-- C13: for all maps `dst` and `src`, after `mergeStat(dst, src)` every key of `src` is
bound to its value in `src`, every other key keeps its binding in `dst`, the keys are those
of `dst` and of `src` and no other, and the order in which the entries of `src` are visited
does not matter; merging `{a:1}`, `{b:2}`, `{a:3}` in that order into an empty map gives
`{a:3, b:2}`; and when the three adapters return maps, `FetchMetrics` binds each key to the
value of the last of the resource, wait-class and wait-event maps that has the key. -/
theorem mergeStat_last_writer_wins {V : Type} (dst src : GoMap V)
    (h : (GoMap.keys src).Nodup) :
    (∀ (k : GoString) (v : V),
      GoMap.get src k = some v → GoMap.get (mergeStat dst src) k = some v) ∧
    (∀ k : GoString,
      GoMap.get src k = none → GoMap.get (mergeStat dst src) k = GoMap.get dst k) ∧
    (∀ k : GoString,
      k ∈ GoMap.keys (mergeStat dst src) ↔ k ∈ GoMap.keys dst ∨ k ∈ GoMap.keys src) ∧
    (∀ src2 : GoMap V, src2.Perm src →
      ∀ k : GoString, GoMap.get (mergeStat dst src2) k = GoMap.get (mergeStat dst src) k) ∧
    mergeStat (mergeStat (mergeStat ([] : GoMap Nat) [(ascii "a", 1)]) [(ascii "b", 2)])
        [(ascii "a", 3)] = [(ascii "a", 3), (ascii "b", 2)] ∧
    (∀ (ρ ε E : Type) (re : RegexpPkg ρ ε) (mapLower : GoString → GoString)
        (we : waitEventNames ρ) (db : DB E V) (r c w : GoMap V),
      (fetchResource mapLower db).stat = some r →
      (fetchWaitClass mapLower db).stat = some c →
      (fetchWaitEvents re mapLower we db).stat = some w →
      ∃ stat : GoMap V, (FetchMetrics re mapLower we (.ok db)).stat = some stat ∧
        (FetchMetrics re mapLower we (.ok db)).err = none ∧
        ∀ k : GoString, GoMap.get stat k
          = (GoMap.get w k).or ((GoMap.get c k).or (GoMap.get r k))) := by
  refine ⟨?_, ?_, mergeStat_keys src dst, ?_, by decide, ?_⟩
  · intro k v hv
    rw [mergeStat_get src h, hv]
    rfl
  · intro k hv
    rw [mergeStat_get src h, hv]
    rfl
  · intro src2 hp k
    have h2 : (GoMap.keys src2).Nodup := (List.Perm.nodup_iff (hp.map Prod.fst)).2 h
    rw [mergeStat_get src h, mergeStat_get src2 h2, GoMap.get_perm src2 src hp h]
  · intro ρ ε E re mapLower we db r c w hr hc hw
    exact FetchMetrics_get re mapLower we db r c w hr hc hw

/-- C13 (witness): the three maps of the claim as the maps of the three adapters. -/
theorem mergeStat_last_writer_wins_witness :
    (GoMap.keys ([(ascii "a", 3)] : GoMap Nat)).Nodup
      ∧ GoMap.get (mergeStat [(ascii "a", 1), (ascii "b", 2)] [(ascii "a", 3)]) (ascii "a")
          = some 3
      ∧ GoMap.get (mergeStat [(ascii "a", 1), (ascii "b", 2)] [(ascii "a", 3)]) (ascii "b")
          = some 2 :=
  ⟨by decide,
    (mergeStat_last_writer_wins [(ascii "a", 1), (ascii "b", 2)] [(ascii "a", 3)]
      (by decide)).1 (ascii "a") 3 (by decide),
    ((mergeStat_last_writer_wins [(ascii "a", 1), (ascii "b", 2)] [(ascii "a", 3)]
      (by decide)).2.1 (ascii "b") (by decide)).trans (by decide)⟩

/-! ## Selector order -/

theorem Match_eq_any {ρ ε : Type} (re : RegexpPkg ρ ε) (we : waitEventNames ρ)
    (name : GoString) :
    waitEventNames.Match re we name =
      we.any (fun w =>
        (match w.Pattern with
          | some p => re.MatchString p name
          | none => false) || decide (w.Name = name)) := by
  induction we with
  | nil => rfl
  | cons w ws ih =>
    rw [waitEventNames.Match, List.any_cons, ih]
    split
    · rename_i h; simp [h]
    · rename_i h
      have h2 : (match w.Pattern with
          | some p => re.MatchString p name
          | none => false) = false := by simpa using h
      rw [h2]
      by_cases hn : w.Name = name <;> simp [hn]

/-- C16: `Match(name)` gives the same answer on a list and on every permutation of it. -/
theorem Match_perm {ρ ε : Type} (re : RegexpPkg ρ ε) (we we2 : waitEventNames ρ)
    (name : GoString) (h : we2.Perm we) :
    waitEventNames.Match re we2 name = waitEventNames.Match re we name := by
  rw [Match_eq_any, Match_eq_any, Bool.eq_iff_iff, List.any_eq_true, List.any_eq_true]
  constructor
  · rintro ⟨w, hw, hp⟩; exact ⟨w, h.mem_iff.1 hw, hp⟩
  · rintro ⟨w, hw, hp⟩; exact ⟨w, h.mem_iff.2 hw, hp⟩

/-- C16 (witness): the list of the test and the same selectors in reverse order. -/
theorem Match_perm_witness :
    testList.reverse.Perm testList
      ∧ waitEventNames.Match fragment testList.reverse (ascii "agent")
          = waitEventNames.Match fragment testList (ascii "agent")
      ∧ waitEventNames.Match fragment testList.reverse (ascii "agent") = true :=
  ⟨List.reverse_perm testList,
    Match_perm fragment testList testList.reverse (ascii "agent") (List.reverse_perm testList),
    by decide⟩

/-! ## The loops as merges -/

/-- After a run of assignments a key is bound to the value of the last assignment to it,
or as before when there is none. -/
theorem mergeStat_get_last {V : Type} (src : GoMap V) :
    ∀ (dst : GoMap V) (k : GoString),
      GoMap.get (mergeStat dst src) k =
        (((src.filter (fun kv => decide (kv.1 = k))).getLast?).map Prod.snd).or
          (GoMap.get dst k) := by
  induction src with
  | nil => intro dst k; rfl
  | cons kv rest ih =>
    obtain ⟨k1, v1⟩ := kv
    intro dst k
    rw [mergeStat_cons, ih, GoMap.get_set, List.filter_cons]
    by_cases h1 : k1 = k
    · subst h1
      simp only [decide_True, if_true, List.getLast?_cons]
      cases (List.filter (fun kv => decide (kv.1 = k1)) rest).getLast? <;> rfl
    · have h2 : ¬ k = k1 := fun e => h1 e.symm
      simp only [h1, h2, decide_False, if_false, Bool.false_eq_true]

theorem mergeStat_get_of_not_mem {V : Type} (src dst : GoMap V) (k : GoString)
    (h : k ∉ GoMap.keys src) : GoMap.get (mergeStat dst src) k = GoMap.get dst k := by
  rw [mergeStat_get_last]
  have hf : src.filter (fun kv => decide (kv.1 = k)) = [] := by
    rw [List.filter_eq_nil_iff]
    intro kv hkv hd
    have hk : kv.1 = k := by simpa using hd
    exact h (List.mem_map.2 ⟨kv, hkv, hk⟩)
  rw [hf]
  rfl

/-- Merging entries with fresh, pairwise distinct keys appends the keys in order. -/
theorem mergeStat_keys_append {V : Type} (src : GoMap V) :
    ∀ dst : GoMap V, (GoMap.keys src).Nodup →
      (∀ k ∈ GoMap.keys src, k ∉ GoMap.keys dst) →
      GoMap.keys (mergeStat dst src) = GoMap.keys dst ++ GoMap.keys src := by
  induction src with
  | nil => intro dst _ _; simp [mergeStat, GoMap.keys]
  | cons kv rest ih =>
    obtain ⟨k1, v1⟩ := kv
    intro dst hn hd
    have hk : GoMap.keys ((k1, v1) :: rest) = k1 :: GoMap.keys rest := rfl
    rw [hk, List.nodup_cons] at hn
    rw [hk] at hd
    have h1 : k1 ∉ GoMap.keys dst := hd k1 (List.mem_cons_self _ _)
    have hs : GoMap.keys (GoMap.set dst k1 v1) = GoMap.keys dst ++ [k1] := by
      rw [GoMap.keys_set, if_neg h1]
    rw [mergeStat_cons, ih _ hn.2, hs, hk]
    · simp
    · intro k hkr
      rw [hs, List.mem_append, List.mem_singleton]
      rintro (h2 | h2)
      · exact hd k (List.mem_cons_of_mem _ hkr) h2
      · exact hn.1 (h2 ▸ hkr)

theorem GoMap.mem_of_get {V : Type} (m : GoMap V) (k : GoString) (v : V)
    (h : GoMap.get m k = some v) : (k, v) ∈ m := by
  induction m with
  | nil => cases h
  | cons kv rest ih =>
    obtain ⟨k1, v1⟩ := kv
    rw [GoMap.get_cons] at h
    by_cases h1 : k = k1
    · rw [if_pos h1] at h
      cases h
      rw [h1]
      exact List.mem_cons_self _ _
    · rw [if_neg h1] at h
      exact List.mem_cons_of_mem _ (ih h)

/-- On rows that all decode, the loop of `fetchWaitEvents` makes, for each matching row in
order, the assignment of its count key and then of its latency key. -/
theorem scanWaitEvents_eq_mergeStat {ρ ε E V : Type} (re : RegexpPkg ρ ε)
    (mapLower : GoString → GoString) (we : waitEventNames ρ) (rows : List (WaitEventRow V)) :
    ∀ stat : GoMap V,
      scanWaitEvents re mapLower we (rows.map (Except.ok : WaitEventRow V → Except E _)) stat =
        (some (mergeStat stat
          ((rows.filter (fun row => waitEventNames.Match re we row.wait_name)).flatMap
            (fun row => [(normalize mapLower row.wait_name ++ ascii "_count", row.cnt),
              (normalize mapLower row.wait_name ++ ascii "_latency", row.avgms)]))), none) := by
  induction rows with
  | nil => intro stat; rfl
  | cons row rows ih =>
    intro stat
    rw [List.map_cons, scanWaitEvents, List.filter_cons]
    by_cases hm : waitEventNames.Match re we row.wait_name = true
    · rw [if_pos hm, if_pos hm, ih, List.flatMap_cons]
      rfl
    · rw [if_neg hm, if_neg hm, ih]

/-- The loop of `GraphDefinition` assigns, for each selector in order, its group to its
normalised name. -/
theorem graphLoop_eq_mergeStat {ρ : Type} (mapLower : GoString → GoString)
    (labelPrefix : GoString) (es : waitEventNames ρ) :
    ∀ graphdef : GoMap Graphs,
      graphLoop mapLower labelPrefix es graphdef =
        mergeStat graphdef
          (es.map (fun e => (normalize mapLower e.Name, waitEventGraph mapLower labelPrefix e))) := by
  induction es with
  | nil => intro graphdef; rfl
  | cons e es ih =>
    intro graphdef
    rw [graphLoop, ih, List.map_cons, mergeStat_cons]

theorem count_ne_latency (a b : GoString) : a ++ ascii "_count" ≠ b ++ ascii "_latency" := by
  have h1 : ascii "_count" = [95, 99, 111, 117, 110] ++ [116] := rfl
  have h2 : ascii "_latency" = [95, 108, 97, 116, 101, 110, 99] ++ [121] := rfl
  intro h
  have h3 := congrArg List.getLast? h
  rw [h1, h2, ← List.append_assoc, ← List.append_assoc, List.getLast?_concat,
    List.getLast?_concat] at h3
  cases h3

/-- A key with the ending `_count` or `_latency` is none of the ten fixed metric keys. -/
theorem suffixed_not_fixed (n k : GoString)
    (h : k = n ++ ascii "_count" ∨ k = n ++ ascii "_latency") :
    k ∉ (staticGraphs []).flatMap (fun g => g.2.Metrics.map Metrics.Name) := by
  have hfix : ∀ x ∈ (staticGraphs []).flatMap (fun g => g.2.Metrics.map Metrics.Name),
      ¬ List.IsSuffix (ascii "_count") x ∧ ¬ List.IsSuffix (ascii "_latency") x := by decide
  intro hk
  have hx := hfix k hk
  rcases h with h | h
  · exact hx.1 (h ▸ List.suffix_append n (ascii "_count"))
  · exact hx.2 (h ▸ List.suffix_append n (ascii "_latency"))

/-! ## The wait-event adapter -/

theorem writes_count_last {V : Type} (N : WaitEventRow V → GoString) (n : GoString)
    (ms : List (WaitEventRow V)) :
    (((ms.flatMap (fun row => [(N row ++ ascii "_count", row.cnt),
          (N row ++ ascii "_latency", row.avgms)])).filter
        (fun kv => decide (kv.1 = n ++ ascii "_count"))).getLast?).map Prod.snd
      = ((ms.filter (fun row => decide (N row = n))).getLast?).map (fun row => row.cnt) := by
  induction ms using List.reverseRecOn with
  | nil => rfl
  | append_singleton l a ih =>
    have h2 : ¬ (N a ++ ascii "_latency" = n ++ ascii "_count") :=
      fun e => count_ne_latency n (N a) e.symm
    rw [List.flatMap_append, List.filter_append, List.filter_append, List.getLast?_append,
      List.getLast?_append, Option.map_or', Option.map_or', ih]
    congr 1
    have e1 : ¬ (ascii "_latency" = ascii "_count") := by decide
    have e2 : ¬ (ascii "_count" = ascii "_latency") := by decide
    by_cases h1 : N a = n
    · simp [List.filter_cons, h1, e1, e2]
    · have h3 : ¬ (N a ++ ascii "_count" = n ++ ascii "_count") :=
        fun e => h1 (List.append_cancel_right e)
      simp [List.filter_cons, h1, h2, h3]

theorem writes_latency_last {V : Type} (N : WaitEventRow V → GoString) (n : GoString)
    (ms : List (WaitEventRow V)) :
    (((ms.flatMap (fun row => [(N row ++ ascii "_count", row.cnt),
          (N row ++ ascii "_latency", row.avgms)])).filter
        (fun kv => decide (kv.1 = n ++ ascii "_latency"))).getLast?).map Prod.snd
      = ((ms.filter (fun row => decide (N row = n))).getLast?).map (fun row => row.avgms) := by
  induction ms using List.reverseRecOn with
  | nil => rfl
  | append_singleton l a ih =>
    have h2 : ¬ (N a ++ ascii "_count" = n ++ ascii "_latency") :=
      fun e => count_ne_latency (N a) n e
    rw [List.flatMap_append, List.filter_append, List.filter_append, List.getLast?_append,
      List.getLast?_append, Option.map_or', Option.map_or', ih]
    congr 1
    have e1 : ¬ (ascii "_latency" = ascii "_count") := by decide
    have e2 : ¬ (ascii "_count" = ascii "_latency") := by decide
    by_cases h1 : N a = n
    · simp [List.filter_cons, h1, e1, e2]
    · have h3 : ¬ (N a ++ ascii "_latency" = n ++ ascii "_latency") :=
        fun e => h1 (List.append_cancel_right e)
      simp [List.filter_cons, h1, h2, h3]

/-- With selectors configured and rows that all decode, `fetchWaitEvents` returns the map
of the assignments made for the matching rows, no error, and has sent its statement. -/
theorem fetchWaitEvents_rows {ρ ε E V : Type} (re : RegexpPkg ρ ε)
    (mapLower : GoString → GoString) (we : waitEventNames ρ) (db : DB E V)
    (rows : List (WaitEventRow V)) (hne : we ≠ [])
    (hrows : db.waitEvent = .ok (rows.map .ok)) :
    fetchWaitEvents re mapLower we db =
      ⟨some (mergeStat []
        ((rows.filter (fun row => waitEventNames.Match re we row.wait_name)).flatMap
          (fun row => [(normalize mapLower row.wait_name ++ ascii "_count", row.cnt),
            (normalize mapLower row.wait_name ++ ascii "_latency", row.avgms)]))),
        none, [.waitEvent]⟩ := by
  have h0 : ¬ we.length = 0 := fun h => hne (List.length_eq_zero.1 h)
  unfold fetchWaitEvents
  rw [if_neg h0, hrows]
  simp only [scanWaitEvents_eq_mergeStat]

/-- C11: with a non-empty selector list and rows that all decode, `fetchWaitEvents` returns
a map and no error; the keys of the map are exactly `normalize(name)+"_count"` and
`normalize(name)+"_latency"` for the rows whose name satisfies `Match`; and the key
`n+"_count"` (`n+"_latency"`) is bound to the count (latency) of the last matching row
whose normalised name is `n`. -/
theorem fetchWaitEvents_spec {ρ ε E V : Type} (re : RegexpPkg ρ ε)
    (mapLower : GoString → GoString) (we : waitEventNames ρ) (db : DB E V)
    (rows : List (WaitEventRow V)) (hne : we ≠ [])
    (hrows : db.waitEvent = .ok (rows.map .ok)) :
    ∃ stat : GoMap V,
      fetchWaitEvents re mapLower we db = ⟨some stat, none, [.waitEvent]⟩ ∧
      (∀ k : GoString, k ∈ GoMap.keys stat ↔
        ∃ row ∈ rows, waitEventNames.Match re we row.wait_name = true ∧
          (k = normalize mapLower row.wait_name ++ ascii "_count" ∨
            k = normalize mapLower row.wait_name ++ ascii "_latency")) ∧
      (∀ n : GoString, GoMap.get stat (n ++ ascii "_count") =
        (((rows.filter (fun row => waitEventNames.Match re we row.wait_name)).filter
          (fun row => decide (normalize mapLower row.wait_name = n))).getLast?).map
            (fun row => row.cnt)) ∧
      (∀ n : GoString, GoMap.get stat (n ++ ascii "_latency") =
        (((rows.filter (fun row => waitEventNames.Match re we row.wait_name)).filter
          (fun row => decide (normalize mapLower row.wait_name = n))).getLast?).map
            (fun row => row.avgms)) := by
  refine ⟨_, fetchWaitEvents_rows re mapLower we db rows hne hrows, ?_, ?_, ?_⟩
  · intro k
    rw [mergeStat_keys]
    simp only [GoMap.keys, List.map_nil, List.not_mem_nil, false_or, List.mem_map,
      List.mem_flatMap, List.mem_filter, List.mem_cons, List.mem_singleton, or_false]
    constructor
    · rintro ⟨kv, ⟨row, ⟨hr, hm⟩, hkv⟩, rfl⟩
      refine ⟨row, hr, hm, ?_⟩
      rcases hkv with hkv | hkv
      · left; rw [hkv]
      · right; rw [hkv]
    · rintro ⟨row, hr, hm, hk | hk⟩
      · exact ⟨(k, row.cnt), ⟨row, ⟨hr, hm⟩, Or.inl (by rw [hk])⟩, rfl⟩
      · exact ⟨(k, row.avgms), ⟨row, ⟨hr, hm⟩, Or.inr (by rw [hk])⟩, rfl⟩
  · intro n
    rw [mergeStat_get_last,
      writes_count_last (fun row => normalize mapLower row.wait_name) n]
    exact Option.or_none
  · intro n
    rw [mergeStat_get_last,
      writes_latency_last (fun row => normalize mapLower row.wait_name) n]
    exact Option.or_none

/-- C11 (witness): the selectors of the test and four rows, of which `foo` comes twice and
`zzz` matches no selector. -/
theorem fetchWaitEvents_spec_witness :
    testList ≠ [] ∧ demoRowsDB.waitEvent = .ok (demoRows.map .ok)
      ∧ (∃ stat : GoMap Nat,
          fetchWaitEvents fragment latin1Lower testList demoRowsDB
            = ⟨some stat, none, [.waitEvent]⟩ ∧
          (∀ k : GoString, k ∈ GoMap.keys stat ↔
            ∃ row ∈ demoRows, waitEventNames.Match fragment testList row.wait_name = true ∧
              (k = normalize latin1Lower row.wait_name ++ ascii "_count" ∨
                k = normalize latin1Lower row.wait_name ++ ascii "_latency")) ∧
          (∀ n : GoString, GoMap.get stat (n ++ ascii "_count") =
            (((demoRows.filter
                (fun row => waitEventNames.Match fragment testList row.wait_name)).filter
              (fun row => decide (normalize latin1Lower row.wait_name = n))).getLast?).map
                (fun row => row.cnt)) ∧
          (∀ n : GoString, GoMap.get stat (n ++ ascii "_latency") =
            (((demoRows.filter
                (fun row => waitEventNames.Match fragment testList row.wait_name)).filter
              (fun row => decide (normalize latin1Lower row.wait_name = n))).getLast?).map
                (fun row => row.avgms)))
      ∧ (fetchWaitEvents fragment latin1Lower testList demoRowsDB).stat
          = some [(ascii "foo_count", 7), (ascii "foo_latency", 8),
              (ascii "mackerel_count", 5), (ascii "mackerel_latency", 6)] :=
  ⟨by decide, rfl,
    fetchWaitEvents_spec fragment latin1Lower testList demoRowsDB demoRows (by decide) rfl,
    by decide⟩

/-- C12: with an empty selector list `fetchWaitEvents` returns, for every database, the
empty map and no error, and sends no statement. -/
theorem fetchWaitEvents_no_selectors {ρ ε E V : Type} (re : RegexpPkg ρ ε)
    (mapLower : GoString → GoString) (db : DB E V) :
    fetchWaitEvents re mapLower ([] : waitEventNames ρ) db = ⟨some [], none, []⟩ := by
  rfl

/-! ## `FetchMetrics` -/

/-- C15: `FetchMetrics` has no partial success.  When `sql.Open` or an adapter returns an
error, `FetchMetrics` returns that error and a nil map, and only the statements up to the
failing adapter have been sent; it returns a map exactly when it returns no error, and
then all three adapters returned no error. -/
theorem FetchMetrics_all_or_nothing {ρ ε E V : Type} (re : RegexpPkg ρ ε)
    (mapLower : GoString → GoString) (we : waitEventNames ρ) (db : DB E V) :
    (∀ err : E, FetchMetrics re mapLower we (.error err : Except E (DB E V))
      = ⟨none, some err, []⟩) ∧
    (∀ err : E, (fetchResource mapLower db).err = some err →
      FetchMetrics re mapLower we (.ok db) = ⟨none, some err, [.resourceLimit]⟩) ∧
    (∀ err : E, (fetchResource mapLower db).err = none →
      (fetchWaitClass mapLower db).err = some err →
      FetchMetrics re mapLower we (.ok db) = ⟨none, some err, [.resourceLimit, .waitClass]⟩) ∧
    (∀ err : E, (fetchResource mapLower db).err = none →
      (fetchWaitClass mapLower db).err = none →
      (fetchWaitEvents re mapLower we db).err = some err →
      FetchMetrics re mapLower we (.ok db)
        = ⟨none, some err, [.resourceLimit, .waitClass, .waitEvent]⟩) ∧
    ((FetchMetrics re mapLower we (.ok db)).stat ≠ none ↔
      (FetchMetrics re mapLower we (.ok db)).err = none) ∧
    ((FetchMetrics re mapLower we (.ok db)).stat ≠ none →
      (fetchResource mapLower db).err = none ∧ (fetchWaitClass mapLower db).err = none ∧
        (fetchWaitEvents re mapLower we db).err = none) := by
  refine ⟨fun err => rfl, ?_⟩
  rcases fetchResource_cases mapLower db with ⟨r, hr, _⟩ | ⟨e1, hr⟩
  swap
  · simp [FetchMetrics, hr]
  rcases fetchWaitClass_cases mapLower db with ⟨c, hc, _⟩ | ⟨e2, hc⟩
  swap
  · simp [FetchMetrics, hr, hc]
  rcases fetchWaitEvents_cases re mapLower we db with ⟨w, q, hw, _⟩ | ⟨e3, hw⟩
  swap
  · simp [FetchMetrics, hr, hc, hw]
  simp [FetchMetrics, hr, hc, hw]

/-- Every key that the loop of `fetchWaitEvents` adds ends in `_count` or `_latency`. -/
theorem scanWaitEvents_keys {ρ ε E V : Type} (re : RegexpPkg ρ ε)
    (mapLower : GoString → GoString) (we : waitEventNames ρ)
    (rows : List (Except E (WaitEventRow V))) :
    ∀ (stat m : GoMap V), (scanWaitEvents re mapLower we rows stat).1 = some m →
      ∀ k ∈ GoMap.keys m,
        k ∈ GoMap.keys stat ∨ ∃ n : GoString, k = n ++ ascii "_count" ∨ k = n ++ ascii "_latency" := by
  induction rows with
  | nil =>
    intro stat m h k hk
    cases h
    exact Or.inl hk
  | cons row rows ih =>
    intro stat m h k hk
    cases row with
    | error err => cases h
    | ok row =>
      rw [scanWaitEvents] at h
      split at h
      · rcases ih _ m h k hk with h1 | h1
        · rw [GoMap.mem_keys_set, GoMap.mem_keys_set] at h1
          rcases h1 with h1 | h1 | h1
          · exact Or.inr ⟨_, Or.inr h1⟩
          · exact Or.inr ⟨_, Or.inl h1⟩
          · exact Or.inl h1
        · exact Or.inr h1
      · exact ih _ m h k hk

theorem fetchWaitEvents_keys {ρ ε E V : Type} (re : RegexpPkg ρ ε)
    (mapLower : GoString → GoString) (we : waitEventNames ρ) (db : DB E V) (w : GoMap V)
    (h : (fetchWaitEvents re mapLower we db).stat = some w) :
    ∀ k ∈ GoMap.keys w, ∃ n : GoString, k = n ++ ascii "_count" ∨ k = n ++ ascii "_latency" := by
  intro k hk
  unfold fetchWaitEvents at h
  by_cases h0 : we.length = 0
  · rw [if_pos h0] at h
    cases h
    cases hk
  · rw [if_neg h0] at h
    cases hq : db.waitEvent with
    | error err => rw [hq] at h; cases h
    | ok rows =>
      rw [hq] at h
      rcases scanWaitEvents_keys re mapLower we rows [] w h k hk with h1 | h1
      · cases h1
      · exact h1

/-- C19 (counterexample): there are no selectors, regular-expression package, case tables
and database for which the map of the wait-event adapter has one of the ten fixed metric
keys (`processes`, `sessions`, `administrative`, `cpu`, ...) among its keys. -/
theorem wait_events_never_write_a_fixed_key :
    ¬ ∃ (ρ ε E V : Type) (re : RegexpPkg ρ ε) (mapLower : GoString → GoString)
        (we : waitEventNames ρ) (db : DB E V) (w : GoMap V) (k : GoString),
      (fetchWaitEvents re mapLower we db).stat = some w ∧
      k ∈ (staticGraphs []).flatMap (fun g => g.2.Metrics.map Metrics.Name) ∧
      k ∈ GoMap.keys w := by
  rintro ⟨ρ, ε, E, V, re, mapLower, we, db, w, k, hw, hfix, hk⟩
  obtain ⟨n, hn⟩ := fetchWaitEvents_keys re mapLower we db w hw k hk
  exact suffixed_not_fixed n k hn hfix

/-- C19 (amended): whenever `FetchMetrics` returns a map, each of the ten fixed metric keys
is bound in it as in the map of the wait-class adapter, or when that has no such key as in
the map of the resource adapter, and it is no key of the map of the wait-event adapter. -/
theorem FetchMetrics_fixed_keys {ρ ε E V : Type} (re : RegexpPkg ρ ε)
    (mapLower : GoString → GoString) (we : waitEventNames ρ) (db : DB E V) (stat : GoMap V)
    (k : GoString) (h : (FetchMetrics re mapLower we (.ok db)).stat = some stat)
    (hk : k ∈ (staticGraphs []).flatMap (fun g => g.2.Metrics.map Metrics.Name)) :
    ∃ r c w : GoMap V, (fetchResource mapLower db).stat = some r ∧
      (fetchWaitClass mapLower db).stat = some c ∧
      (fetchWaitEvents re mapLower we db).stat = some w ∧
      k ∉ GoMap.keys w ∧
      GoMap.get stat k = (GoMap.get c k).or (GoMap.get r k) := by
  rcases fetchResource_cases mapLower db with ⟨r, hr, _⟩ | ⟨e1, hr⟩
  swap
  · simp [FetchMetrics, hr] at h
  rcases fetchWaitClass_cases mapLower db with ⟨c, hc, _⟩ | ⟨e2, hc⟩
  swap
  · simp [FetchMetrics, hr, hc] at h
  rcases fetchWaitEvents_cases re mapLower we db with ⟨w, q, hw, _⟩ | ⟨e3, hw⟩
  swap
  · simp [FetchMetrics, hr, hc, hw] at h
  have hr2 : (fetchResource mapLower db).stat = some r := by rw [hr]
  have hc2 : (fetchWaitClass mapLower db).stat = some c := by rw [hc]
  have hw2 : (fetchWaitEvents re mapLower we db).stat = some w := by rw [hw]
  have hnot : k ∉ GoMap.keys w := by
    intro hkw
    obtain ⟨n, hn⟩ := fetchWaitEvents_keys re mapLower we db w hw2 k hkw
    exact suffixed_not_fixed n k hn hk
  obtain ⟨stat2, hs, _, hget⟩ := FetchMetrics_get re mapLower we db r c w hr2 hc2 hw2
  rw [hs] at h
  cases h
  refine ⟨r, c, w, hr2, hc2, hw2, hnot, ?_⟩
  rw [hget k, (GoMap.get_eq_none_iff w k).2 hnot]
  rfl

/-- C19 (witness): with the selectors `processes` and `CPU` and wait-event rows of these
names, `processes` is bound to the value of the resource adapter. -/
theorem FetchMetrics_fixed_keys_witness :
    (FetchMetrics fragment latin1Lower fixedKeyList (.ok demoDB)).stat
        = some [(ascii "processes", 40), (ascii "sessions", 50), (ascii "cpu", 11),
            (ascii "user_io", 12), (ascii "processes_count", 91),
            (ascii "processes_latency", 92), (ascii "cpu_count", 93),
            (ascii "cpu_latency", 94)]
      ∧ ascii "processes" ∈ (staticGraphs []).flatMap (fun g => g.2.Metrics.map Metrics.Name)
      ∧ ∃ r c w : GoMap Nat, (fetchResource latin1Lower demoDB).stat = some r ∧
          (fetchWaitClass latin1Lower demoDB).stat = some c ∧
          (fetchWaitEvents fragment latin1Lower fixedKeyList demoDB).stat = some w ∧
          ascii "processes" ∉ GoMap.keys w ∧
          GoMap.get [(ascii "processes", 40), (ascii "sessions", 50), (ascii "cpu", 11),
            (ascii "user_io", 12), (ascii "processes_count", 91),
            (ascii "processes_latency", 92), (ascii "cpu_count", 93),
            (ascii "cpu_latency", 94)] (ascii "processes")
            = (GoMap.get c (ascii "processes")).or (GoMap.get r (ascii "processes")) :=
  ⟨by decide, by decide,
    FetchMetrics_fixed_keys fragment latin1Lower fixedKeyList demoDB _ (ascii "processes")
      (by decide) (by decide)⟩

/-! ## Graph definitions -/

theorem GraphDefinition_eq_mergeStat {ρ : Type} (Title mapLower : GoString → GoString)
    (we : waitEventNames ρ) (p : OraclePlugin) :
    OraclePlugin.GraphDefinition Title mapLower we p =
      mergeStat (staticGraphs (Title p.MetricKeyPrefix))
        (we.map (fun e => (normalize mapLower e.Name,
          waitEventGraph mapLower (Title p.MetricKeyPrefix) e))) := by
  unfold OraclePlugin.GraphDefinition
  rw [graphLoop_eq_mergeStat]

theorem keys_graph_entries {ρ : Type} (mapLower : GoString → GoString)
    (labelPrefix : GoString) (we : waitEventNames ρ) :
    GoMap.keys (we.map (fun e => (normalize mapLower e.Name,
        waitEventGraph mapLower labelPrefix e)))
      = we.map (fun e => normalize mapLower e.Name) := by
  simp [GoMap.keys, List.map_map, Function.comp_def]

theorem keys_staticGraphs (labelPrefix : GoString) :
    GoMap.keys (staticGraphs labelPrefix) = [ascii "resource", ascii "waitclass"] := rfl

/-- For every selector there is a group under its normalised name whose two metrics are
named by that name with `_count` and `_latency`. -/
theorem GraphDefinition_has_group {ρ : Type} (Title mapLower : GoString → GoString)
    (we : waitEventNames ρ) (p : OraclePlugin) (e : waitEventName ρ) (he : e ∈ we) :
    ∃ g : Graphs, (normalize mapLower e.Name, g) ∈ OraclePlugin.GraphDefinition Title mapLower we p
      ∧ g.Metrics.map Metrics.Name
        = [normalize mapLower e.Name ++ ascii "_count",
           normalize mapLower e.Name ++ ascii "_latency"] := by
  rw [GraphDefinition_eq_mergeStat]
  have hmem : (normalize mapLower e.Name, waitEventGraph mapLower (Title p.MetricKeyPrefix) e)
      ∈ (we.map (fun e => (normalize mapLower e.Name,
          waitEventGraph mapLower (Title p.MetricKeyPrefix) e))).filter
            (fun kv => decide (kv.1 = normalize mapLower e.Name)) := by
    rw [List.mem_filter]
    exact ⟨List.mem_map.2 ⟨e, he, rfl⟩, by simp⟩
  cases hl : ((we.map (fun e => (normalize mapLower e.Name,
          waitEventGraph mapLower (Title p.MetricKeyPrefix) e))).filter
            (fun kv => decide (kv.1 = normalize mapLower e.Name))).getLast? with
  | none =>
    rw [List.getLast?_eq_none_iff] at hl
    rw [hl] at hmem
    cases hmem
  | some kv =>
    have hkv := List.mem_of_getLast?_eq_some hl
    rw [List.mem_filter] at hkv
    obtain ⟨e2, _, he2⟩ := List.mem_map.1 hkv.1
    have hk : kv.1 = normalize mapLower e.Name := by simpa using hkv.2
    refine ⟨kv.2, ?_, ?_⟩
    · apply GoMap.mem_of_get
      rw [mergeStat_get_last, hl]
      rfl
    · rw [← he2] at hk ⊢
      simp only at hk
      simp only [waitEventGraph, List.map_cons, List.map_nil, hk]

/-- C14 (counterexample): after two successful calls `Set("foo")` the list has two
selectors and `GraphDefinition` returns three groups. -/
theorem GraphDefinition_merges_equal_names :
    (∀ err ∈ (waitEventNames.SetAll fragment [] [ascii "foo", ascii "foo"]).2, err = none)
      ∧ (waitEventNames.SetAll fragment [] [ascii "foo", ascii "foo"]).1.length = 2
      ∧ (GoMap.keys (OraclePlugin.GraphDefinition asciiTitle latin1Lower
          (waitEventNames.SetAll fragment [] [ascii "foo", ascii "foo"]).1
          defaultPlugin)).length = 3 := by
  decide

/-- C14 (amended): when the normalised names of the selectors are pairwise distinct and
none is `resource` or `waitclass`, `GraphDefinition` returns the groups `resource`,
`waitclass` and one group per selector, `n + 2` in all; the group of a selector is labelled
with the title-cased prefix, ` Wait Events: ` and the text of the selector, has unit `float`
and has exactly two metrics, named by the normalised name with `_count` and `_latency`. -/
theorem GraphDefinition_groups {ρ : Type} (Title mapLower : GoString → GoString)
    (we : waitEventNames ρ) (p : OraclePlugin)
    (hd : (we.map (fun e => normalize mapLower e.Name)).Nodup)
    (hs : ∀ e ∈ we, normalize mapLower e.Name ≠ ascii "resource" ∧
      normalize mapLower e.Name ≠ ascii "waitclass") :
    GoMap.keys (OraclePlugin.GraphDefinition Title mapLower we p)
        = [ascii "resource", ascii "waitclass"] ++ we.map (fun e => normalize mapLower e.Name)
      ∧ (GoMap.keys (OraclePlugin.GraphDefinition Title mapLower we p)).length = we.length + 2
      ∧ ∀ e ∈ we, ∃ g : Graphs,
          GoMap.get (OraclePlugin.GraphDefinition Title mapLower we p)
            (normalize mapLower e.Name) = some g ∧
          g.Label = Title p.MetricKeyPrefix ++ ascii " Wait Events: " ++ e.Name ∧
          g.Unit = ascii "float" ∧
          g.Metrics.map Metrics.Name
            = [normalize mapLower e.Name ++ ascii "_count",
               normalize mapLower e.Name ++ ascii "_latency"] := by
  have hn : (GoMap.keys (we.map (fun e => (normalize mapLower e.Name,
      waitEventGraph mapLower (Title p.MetricKeyPrefix) e)))).Nodup := by
    rw [keys_graph_entries]; exact hd
  have hkeys : GoMap.keys (OraclePlugin.GraphDefinition Title mapLower we p)
      = [ascii "resource", ascii "waitclass"] ++ we.map (fun e => normalize mapLower e.Name) := by
    rw [GraphDefinition_eq_mergeStat, mergeStat_keys_append _ _ hn, keys_graph_entries,
      keys_staticGraphs]
    intro k hk
    rw [keys_graph_entries] at hk
    obtain ⟨e, he, rfl⟩ := List.mem_map.1 hk
    rw [keys_staticGraphs]
    simp only [List.mem_cons, List.mem_singleton, List.not_mem_nil, or_false]
    rintro (h | h)
    · exact (hs e he).1 h
    · exact (hs e he).2 h
  refine ⟨hkeys, ?_, ?_⟩
  · rw [hkeys, List.length_append, List.length_map]
    exact Nat.add_comm _ _
  · intro e he
    refine ⟨waitEventGraph mapLower (Title p.MetricKeyPrefix) e, ?_, rfl, rfl, rfl⟩
    rw [GraphDefinition_eq_mergeStat, mergeStat_get _ hn]
    have hg : GoMap.get (we.map (fun e => (normalize mapLower e.Name,
        waitEventGraph mapLower (Title p.MetricKeyPrefix) e))) (normalize mapLower e.Name)
        = some (waitEventGraph mapLower (Title p.MetricKeyPrefix) e) := by
      rw [GoMap.get_eq_some_iff _ hn]
      exact List.mem_map.2 ⟨e, he, rfl⟩
    rw [hg]
    rfl

/-- C14 (witness): the four selectors of the test. -/
theorem GraphDefinition_groups_witness :
    (testList.map (fun e => normalize latin1Lower e.Name)).Nodup
      ∧ (∀ e ∈ testList, normalize latin1Lower e.Name ≠ ascii "resource" ∧
          normalize latin1Lower e.Name ≠ ascii "waitclass")
      ∧ GoMap.keys (OraclePlugin.GraphDefinition asciiTitle latin1Lower testList defaultPlugin)
          = [ascii "resource", ascii "waitclass", ascii "foo", ascii "bar", ascii "\"baz\"",
              ascii "^(mackerel|agent)$"]
      ∧ (GoMap.keys (OraclePlugin.GraphDefinition asciiTitle latin1Lower testList
          defaultPlugin)).length = testList.length + 2 :=
  ⟨by decide, by decide,
    (GraphDefinition_groups asciiTitle latin1Lower testList defaultPlugin (by decide)
      (by decide)).1.trans (by decide),
    (GraphDefinition_groups asciiTitle latin1Lower testList defaultPlugin (by decide)
      (by decide)).2.1⟩

/-- C18 (counterexample): with the selector `resource`, the group `resource` has unit
`float` and the metrics `resource_count` and `resource_latency`. -/
theorem GraphDefinition_static_group_replaced :
    (∀ err ∈ (waitEventNames.SetAll fragment [] [ascii "resource"]).2, err = none)
      ∧ (GoMap.get (OraclePlugin.GraphDefinition asciiTitle latin1Lower
          (waitEventNames.SetAll fragment [] [ascii "resource"]).1 defaultPlugin)
          (ascii "resource")).map (fun g => (g.Unit, g.Metrics.map Metrics.Name))
        = some (ascii "float", [ascii "resource_count", ascii "resource_latency"]) := by
  decide

/-- C18 (amended): when no selector has the normalised name `resource` or `waitclass`, the
group `resource` has unit `integer` and exactly the metrics `processes` and `sessions`, and
the group `waitclass` has unit `float` and exactly the eight metrics of the claim. -/
theorem GraphDefinition_static_groups {ρ : Type} (Title mapLower : GoString → GoString)
    (we : waitEventNames ρ) (p : OraclePlugin)
    (hs : ∀ e ∈ we, normalize mapLower e.Name ≠ ascii "resource" ∧
      normalize mapLower e.Name ≠ ascii "waitclass") :
    (∃ g : Graphs,
      GoMap.get (OraclePlugin.GraphDefinition Title mapLower we p) (ascii "resource") = some g ∧
      g.Label = Title p.MetricKeyPrefix ++ ascii " Resource Limit" ∧
      g.Unit = ascii "integer" ∧
      g.Metrics.map Metrics.Name = [ascii "processes", ascii "sessions"]) ∧
    (∃ g : Graphs,
      GoMap.get (OraclePlugin.GraphDefinition Title mapLower we p) (ascii "waitclass") = some g ∧
      g.Label = Title p.MetricKeyPrefix ++ ascii " Wait Class" ∧
      g.Unit = ascii "float" ∧
      g.Metrics.map Metrics.Name = [ascii "administrative", ascii "cpu", ascii "cpu_os",
        ascii "concurrency", ascii "configuration", ascii "network", ascii "other",
        ascii "scheduler"]) := by
  have h1 : ascii "resource" ∉ GoMap.keys (we.map (fun e => (normalize mapLower e.Name,
      waitEventGraph mapLower (Title p.MetricKeyPrefix) e))) := by
    rw [keys_graph_entries]
    intro hk
    obtain ⟨e, he, h⟩ := List.mem_map.1 hk
    exact (hs e he).1 h
  have h2 : ascii "waitclass" ∉ GoMap.keys (we.map (fun e => (normalize mapLower e.Name,
      waitEventGraph mapLower (Title p.MetricKeyPrefix) e))) := by
    rw [keys_graph_entries]
    intro hk
    obtain ⟨e, he, h⟩ := List.mem_map.1 hk
    exact (hs e he).2 h
  rw [GraphDefinition_eq_mergeStat, mergeStat_get_of_not_mem _ _ _ h1,
    mergeStat_get_of_not_mem _ _ _ h2]
  exact ⟨⟨_, rfl, rfl, rfl, rfl⟩, ⟨_, rfl, rfl, rfl, rfl⟩⟩

/-- C18 (witness): the four selectors of the test. -/
theorem GraphDefinition_static_groups_witness :
    (∀ e ∈ testList, normalize latin1Lower e.Name ≠ ascii "resource" ∧
        normalize latin1Lower e.Name ≠ ascii "waitclass")
      ∧ (GoMap.get (OraclePlugin.GraphDefinition asciiTitle latin1Lower testList defaultPlugin)
          (ascii "resource")).map (fun g => g.Label) = some (ascii "Oracle Resource Limit")
      ∧ ((∃ g : Graphs,
          GoMap.get (OraclePlugin.GraphDefinition asciiTitle latin1Lower testList defaultPlugin)
            (ascii "resource") = some g ∧
          g.Label = asciiTitle defaultPlugin.MetricKeyPrefix ++ ascii " Resource Limit" ∧
          g.Unit = ascii "integer" ∧
          g.Metrics.map Metrics.Name = [ascii "processes", ascii "sessions"]) ∧
        (∃ g : Graphs,
          GoMap.get (OraclePlugin.GraphDefinition asciiTitle latin1Lower testList defaultPlugin)
            (ascii "waitclass") = some g ∧
          g.Label = asciiTitle defaultPlugin.MetricKeyPrefix ++ ascii " Wait Class" ∧
          g.Unit = ascii "float" ∧
          g.Metrics.map Metrics.Name = [ascii "administrative", ascii "cpu", ascii "cpu_os",
            ascii "concurrency", ascii "configuration", ascii "network", ascii "other",
            ascii "scheduler"])) :=
  ⟨by decide, by decide,
    GraphDefinition_static_groups asciiTitle latin1Lower testList defaultPlugin (by decide)⟩

/-! ## Reported keys and graph definitions -/

/-- On a list of literal selectors a matching name is the text of a selector. -/
theorem Match_literal {ρ ε : Type} (re : RegexpPkg ρ ε) (we : waitEventNames ρ)
    (name : GoString) (hlit : ∀ e ∈ we, e.Pattern = none)
    (h : waitEventNames.Match re we name = true) : ∃ e ∈ we, e.Name = name := by
  rw [Match_eq_any, List.any_eq_true] at h
  obtain ⟨e, he, hp⟩ := h
  rw [hlit e he] at hp
  exact ⟨e, he, by simpa using hp⟩

/-- C17 (counterexample): with the four selectors of the test and a decoded row named
`mackerel`, `mackerel_count` is a key of the map of `fetchWaitEvents` and the name of no
metric of any group of `GraphDefinition`. -/
theorem pattern_keys_have_no_metric :
    (∃ stat : GoMap Nat,
        (fetchWaitEvents fragment latin1Lower testList demoRowsDB).stat = some stat ∧
          ascii "mackerel_count" ∈ GoMap.keys stat)
      ∧ ∀ kv ∈ OraclePlugin.GraphDefinition asciiTitle latin1Lower testList defaultPlugin,
          ∀ m ∈ kv.2.Metrics, m.Name ≠ ascii "mackerel_count" := by
  refine ⟨⟨[(ascii "foo_count", 7), (ascii "foo_latency", 8), (ascii "mackerel_count", 5),
    (ascii "mackerel_latency", 6)], by decide, by decide⟩, by decide⟩

theorem GoMap.mem_set {V : Type} (m : GoMap V) (k : GoString) (v : V) (x : GoString × V)
    (h : x ∈ GoMap.set m k v) : x ∈ m ∨ x = (k, v) := by
  induction m with
  | nil =>
    rw [GoMap.set, List.mem_singleton] at h
    exact Or.inr h
  | cons kv rest ih =>
    obtain ⟨k1, v1⟩ := kv
    rw [GoMap.set] at h
    by_cases h1 : k1 = k
    · rw [if_pos h1] at h
      rcases List.mem_cons.1 h with h | h
      · exact Or.inr h
      · exact Or.inl (List.mem_cons_of_mem _ h)
    · rw [if_neg h1] at h
      rcases List.mem_cons.1 h with h | h
      · exact Or.inl (h ▸ List.mem_cons_self _ _)
      · rcases ih h with h2 | h2
        · exact Or.inl (List.mem_cons_of_mem _ h2)
        · exact Or.inr h2

/-- An entry of a merged map is an entry of `dst` or one of the assignments. -/
theorem mem_mergeStat {V : Type} (src : GoMap V) :
    ∀ (dst : GoMap V) (x : GoString × V), x ∈ mergeStat dst src → x ∈ dst ∨ x ∈ src := by
  induction src with
  | nil => intro dst x h; exact Or.inl h
  | cons kv rest ih =>
    intro dst x h
    rw [mergeStat_cons] at h
    rcases ih _ x h with h1 | h1
    · rcases GoMap.mem_set dst kv.1 kv.2 x h1 with h2 | h2
      · exact Or.inl h2
      · exact Or.inr (h2 ▸ List.mem_cons_self _ _)
    · exact Or.inr (List.mem_cons_of_mem _ h1)

/-- A metric of a group of `GraphDefinition` whose name ends in `_count` belongs to the
group of a selector with that normalised name. -/
theorem count_metric_has_selector {ρ : Type} (Title mapLower : GoString → GoString)
    (we : waitEventNames ρ) (p : OraclePlugin) (n : GoString)
    (h : ∃ kv ∈ OraclePlugin.GraphDefinition Title mapLower we p,
      ∃ m ∈ kv.2.Metrics, m.Name = n ++ ascii "_count") :
    ∃ e ∈ we, normalize mapLower e.Name = n := by
  obtain ⟨kv, hkv, m, hm, hname⟩ := h
  rw [GraphDefinition_eq_mergeStat] at hkv
  rcases mem_mergeStat _ _ kv hkv with h1 | h1
  · exfalso
    have hfix : m.Name ∈ (staticGraphs []).flatMap (fun g => g.2.Metrics.map Metrics.Name) := by
      have h2 : m.Name ∈ (staticGraphs (Title p.MetricKeyPrefix)).flatMap
          (fun g => g.2.Metrics.map Metrics.Name) :=
        List.mem_flatMap.2 ⟨kv, h1, List.mem_map.2 ⟨m, hm, rfl⟩⟩
      exact h2
    exact suffixed_not_fixed n m.Name (Or.inl hname) hfix
  · obtain ⟨e, he, hkve⟩ := List.mem_map.1 h1
    rw [← hkve] at hm
    simp only [waitEventGraph, List.mem_cons, List.mem_singleton, List.not_mem_nil,
      or_false] at hm
    rcases hm with hm | hm
    · rw [hm] at hname
      exact ⟨e, he, List.append_cancel_right hname⟩
    · rw [hm] at hname
      exact absurd hname.symm (count_ne_latency n (normalize mapLower e.Name))

/-- C17 (amended): when the rows all decode, every key of the map of `fetchWaitEvents` is
the name of a metric of a group of `GraphDefinition` if and only if the normalised name of
every matching row is the normalised name of some selector; this is so whenever all
selectors are literal. -/
theorem wait_event_keys_have_metrics {ρ ε E V : Type} (re : RegexpPkg ρ ε)
    (Title mapLower : GoString → GoString) (we : waitEventNames ρ) (p : OraclePlugin)
    (db : DB E V) (rows : List (WaitEventRow V))
    (hrows : db.waitEvent = .ok (rows.map .ok)) :
    ∃ stat : GoMap V, (fetchWaitEvents re mapLower we db).stat = some stat ∧
      ((∀ k ∈ GoMap.keys stat,
          ∃ kv ∈ OraclePlugin.GraphDefinition Title mapLower we p,
            ∃ m ∈ kv.2.Metrics, m.Name = k) ↔
        ∀ row ∈ rows, waitEventNames.Match re we row.wait_name = true →
          ∃ e ∈ we, normalize mapLower e.Name = normalize mapLower row.wait_name) ∧
      ((∀ e ∈ we, e.Pattern = none) →
        ∀ k ∈ GoMap.keys stat,
          ∃ kv ∈ OraclePlugin.GraphDefinition Title mapLower we p,
            ∃ m ∈ kv.2.Metrics, m.Name = k) := by
  by_cases hne : we = []
  · subst hne
    refine ⟨[], rfl, ⟨fun _ row _ hm => ?_, fun _ k hk => by cases hk⟩,
      fun _ k hk => by cases hk⟩
    simp [waitEventNames.Match] at hm
  · rw [fetchWaitEvents_rows re mapLower we db rows hne hrows]
    have hkeys : ∀ k : GoString,
        k ∈ GoMap.keys (mergeStat ([] : GoMap V)
          ((rows.filter (fun row => waitEventNames.Match re we row.wait_name)).flatMap
            (fun row => [(normalize mapLower row.wait_name ++ ascii "_count", row.cnt),
              (normalize mapLower row.wait_name ++ ascii "_latency", row.avgms)]))) ↔
        ∃ row ∈ rows, waitEventNames.Match re we row.wait_name = true ∧
          (k = normalize mapLower row.wait_name ++ ascii "_count" ∨
            k = normalize mapLower row.wait_name ++ ascii "_latency") := by
      intro k
      rw [mergeStat_keys]
      simp only [GoMap.keys, List.map_nil, List.not_mem_nil, false_or, List.mem_map,
        List.mem_flatMap, List.mem_filter, List.mem_cons, List.mem_singleton, or_false]
      constructor
      · rintro ⟨kv, ⟨row, ⟨hr, hm⟩, hkv⟩, rfl⟩
        refine ⟨row, hr, hm, ?_⟩
        rcases hkv with hkv | hkv
        · left; rw [hkv]
        · right; rw [hkv]
      · rintro ⟨row, hr, hm, hk | hk⟩
        · exact ⟨(k, row.cnt), ⟨row, ⟨hr, hm⟩, Or.inl (by rw [hk])⟩, rfl⟩
        · exact ⟨(k, row.avgms), ⟨row, ⟨hr, hm⟩, Or.inr (by rw [hk])⟩, rfl⟩
    have hback : (∀ row ∈ rows, waitEventNames.Match re we row.wait_name = true →
          ∃ e ∈ we, normalize mapLower e.Name = normalize mapLower row.wait_name) →
        ∀ k ∈ GoMap.keys (mergeStat ([] : GoMap V)
          ((rows.filter (fun row => waitEventNames.Match re we row.wait_name)).flatMap
            (fun row => [(normalize mapLower row.wait_name ++ ascii "_count", row.cnt),
              (normalize mapLower row.wait_name ++ ascii "_latency", row.avgms)]))),
          ∃ kv ∈ OraclePlugin.GraphDefinition Title mapLower we p,
            ∃ m ∈ kv.2.Metrics, m.Name = k := by
      intro hname k hk
      obtain ⟨row, hr, hm, hk2⟩ := (hkeys k).1 hk
      obtain ⟨e, he, hen⟩ := hname row hr hm
      obtain ⟨g, hg, hnames⟩ := GraphDefinition_has_group Title mapLower we p e he
      have hin : k ∈ g.Metrics.map Metrics.Name := by
        rw [hnames, hen]
        rcases hk2 with hk2 | hk2
        · rw [hk2]; exact List.mem_cons_self _ _
        · rw [hk2]; exact List.mem_cons_of_mem _ (List.mem_cons_self _ _)
      obtain ⟨m, hm1, hm2⟩ := List.mem_map.1 hin
      exact ⟨_, hg, m, hm1, hm2⟩
    refine ⟨_, rfl, ⟨?_, hback⟩, ?_⟩
    · intro hall row hr hm
      have hk : normalize mapLower row.wait_name ++ ascii "_count" ∈
          GoMap.keys (mergeStat ([] : GoMap V)
            ((rows.filter (fun row => waitEventNames.Match re we row.wait_name)).flatMap
              (fun row => [(normalize mapLower row.wait_name ++ ascii "_count", row.cnt),
                (normalize mapLower row.wait_name ++ ascii "_latency", row.avgms)]))) :=
        (hkeys _).2 ⟨row, hr, hm, Or.inl rfl⟩
      exact count_metric_has_selector Title mapLower we p _ (hall _ hk)
    · intro hlit
      apply hback
      intro row _ hm
      obtain ⟨e, he, hen⟩ := Match_literal re we row.wait_name hlit hm
      exact ⟨e, he, by rw [hen]⟩

/-- C17 (witness): the pattern selector `/foo/` and four rows, of which the two named `foo`
match: the normalised name of the selector is `foo`, and every key is described. -/
theorem wait_event_keys_have_metrics_witness :
    demoRowsDB.waitEvent = .ok (demoRows.map .ok)
      ∧ (fetchWaitEvents fragment latin1Lower slashFooList demoRowsDB).stat
          = some [(ascii "foo_count", 7), (ascii "foo_latency", 8)]
      ∧ (∀ row ∈ demoRows, waitEventNames.Match fragment slashFooList row.wait_name = true →
          ∃ e ∈ slashFooList,
            normalize latin1Lower e.Name = normalize latin1Lower row.wait_name)
      ∧ ∃ stat : GoMap Nat,
          (fetchWaitEvents fragment latin1Lower slashFooList demoRowsDB).stat = some stat ∧
          ((∀ k ∈ GoMap.keys stat,
              ∃ kv ∈ OraclePlugin.GraphDefinition asciiTitle latin1Lower slashFooList
                  defaultPlugin,
                ∃ m ∈ kv.2.Metrics, m.Name = k) ↔
            ∀ row ∈ demoRows,
              waitEventNames.Match fragment slashFooList row.wait_name = true →
                ∃ e ∈ slashFooList,
                  normalize latin1Lower e.Name = normalize latin1Lower row.wait_name) ∧
          ((∀ e ∈ slashFooList, e.Pattern = none) →
            ∀ k ∈ GoMap.keys stat,
              ∃ kv ∈ OraclePlugin.GraphDefinition asciiTitle latin1Lower slashFooList
                  defaultPlugin,
                ∃ m ∈ kv.2.Metrics, m.Name = k) :=
  ⟨rfl, by decide, by decide,
    wait_event_keys_have_metrics fragment asciiTitle latin1Lower slashFooList defaultPlugin
      demoRowsDB demoRows rfl⟩

/-- With the literal selectors `foo`, `bar`, `zzz` every reported key is described. -/
theorem literal_keys_have_metrics :
    (fetchWaitEvents fragment latin1Lower literalList demoRowsDB).stat
        = some [(ascii "foo_count", 7), (ascii "foo_latency", 8), (ascii "zzz_count", 3),
            (ascii "zzz_latency", 4)]
      ∧ ∀ k ∈ [ascii "foo_count", ascii "foo_latency", ascii "zzz_count", ascii "zzz_latency"],
          ∃ kv ∈ OraclePlugin.GraphDefinition asciiTitle latin1Lower literalList defaultPlugin,
            ∃ m ∈ kv.2.Metrics, m.Name = k := by
  decide

/-- C15 (witness): a database whose wait-class statement fails: `FetchMetrics` returns the
error and a nil map, and the wait-event statement has not been sent. -/
theorem FetchMetrics_all_or_nothing_witness :
    (fetchResource latin1Lower failingDB).err = none
      ∧ (fetchWaitClass latin1Lower failingDB).err
          = some "ORA-00942: table or view does not exist"
      ∧ FetchMetrics fragment latin1Lower testList (.ok failingDB)
          = ⟨none, some "ORA-00942: table or view does not exist",
              [.resourceLimit, .waitClass]⟩ :=
  ⟨by decide, by decide,
    (FetchMetrics_all_or_nothing fragment latin1Lower testList failingDB).2.2.1
      "ORA-00942: table or view does not exist" (by decide) (by decide)⟩

end mporacle
